import Mathlib

/-!
# ospath: POSIX path manipulation

A shallow embedding of the string functions of `src/src/posixpath.cpp`, of the
`join` templates of `src/include/ospath.hpp` and of the home-directory lookups of
`src/src/os.cpp`, followed by theorems about them.

A `std::string` is a list of characters, a `std::vector<T>` a list of `T`. The functions that
ask the operating system (`absPath`, `expandUser`, `isLink`, `isMount`) take the answers of
the system calls as parameters.
-/

namespace ospath

/-- A `std::string`: a finite sequence of characters. -/
abbrev Str := List Char

/-- The path separator, `constexpr char SEP = '/'`. -/
def SEP : Char := '/'

/-- The literal `"."`. -/
def dot : Str := ['.']

/-- The literal `".."`. -/
def dotdot : Str := ['.', '.']

/-! ## Anonymous-namespace helpers of posixpath.cpp -/

/-- One call of `std::getline(stream, token, delim)` on the unread rest of the stream.
It fails (`none`) when nothing is left to read; otherwise the token is what stands
before the first delimiter (or the end of the input) and the delimiter is consumed. -/
def getline (stream : Str) (delim : Char) : Option (Str × Str) :=
  match stream with
  | [] => none
  | _ :: _ =>
    some (stream.takeWhile (fun c => c != delim),
          (stream.dropWhile (fun c => c != delim)).drop 1)

/-- The loop `while (std::getline(tokenStream, token, delim)) tokens.push_back(token);`
run for at most `fuel` iterations. -/
def splitLoop (delim : Char) : Nat → Str → List Str
  | 0, _ => []
  | fuel + 1, stream =>
    match getline stream delim with
    | none => []
    | some (token, rest) => token :: splitLoop delim fuel rest

/-- The function `splitString(text, delim)`. Every successful `getline` consumes at least one
character, so `text.length + 1` iterations always reach the failing `getline`. -/
def splitString (text : Str) (delim : Char) : List Str :=
  splitLoop delim (text.length + 1) text

/-- The function `startsWith(haystack, needle)`: `haystack.rfind(needle, 0) == 0`, that is,
`needle` occurs in `haystack` at position 0. -/
def startsWith (haystack needle : Str) : Bool :=
  haystack.take needle.length == needle

/-- The function `joinString(sep, first, end)` on the range given as a list. -/
def joinString (sep : Char) : List Str → Str
  | [] => []
  | [x] => x
  | x :: y :: rest => x ++ sep :: joinString sep (y :: rest)

/-! ## isAbs, normPath -/

/-- The function `isAbs(pathname)`. -/
def isAbs (pathname : Str) : Bool :=
  !pathname.isEmpty && pathname.head? == some SEP

/-- The local `initialSlashes` of `normPath` after its two assignments. -/
def initialSlashes (path : Str) : Nat :=
  let n : Nat := if path.head? == some SEP then 1 else 0
  if n != 0 && startsWith path [SEP, SEP] && !startsWith path [SEP, SEP, SEP] then 2 else n

/-- The erase/remove_if idiom of `normPath` and `commonPath`: drop the components that are
empty or equal to `"."`. -/
def removeEmptyAndDot (comps : List Str) : List Str :=
  comps.filter (fun s => !(s.isEmpty || s == dot))

/-- The vector `comps` of `normPath` (and each element of `split_paths` in `commonPath`):
`splitString(path, SEP)` followed by the erase of the empty and `"."` components. -/
def components (path : Str) : List Str :=
  removeEmptyAndDot (splitString path SEP)

/-- One iteration of the `for (const auto& comp : comps)` loop of `normPath`; `newComps` is the
vector, whose back is the end of the list. -/
def normStep (initialSlashes : Nat) (newComps : List Str) (comp : Str) : List Str :=
  if comp != dotdot || (initialSlashes == 0 && newComps.isEmpty)
      || (!newComps.isEmpty && newComps.getLast? == some dotdot) then
    newComps ++ [comp]
  else if !newComps.isEmpty then
    newComps.dropLast
  else
    newComps

/-- The function `normPath(path)`. -/
def normPath (path : Str) : Str :=
  if path.isEmpty then dot
  else
    let initialSlashes := initialSlashes path
    let comps := components path
    let newComps := comps.foldl (normStep initialSlashes) []
    let result := joinString SEP newComps
    let result := if initialSlashes != 0 then List.replicate initialSlashes SEP ++ result else result
    if result.isEmpty then dot else result

/-! ## baseName, dirName, split -/

/-- The constant `std::string::npos`, the largest `size_t`. -/
def npos : Nat := 2 ^ 64 - 1

/-- The call `s.rfind(c)`: the index of the last occurrence of `c`; `none` stands for `npos`. -/
def rfind : Str → Char → Option Nat
  | [], _ => none
  | x :: xs, c =>
    match rfind xs c with
    | some i => some (i + 1)
    | none => if x == c then some 0 else none

/-- The expression `pathname.rfind(SEP) + 1` in `size_t` arithmetic: `npos + 1` wraps to 0. -/
def rfindSepPlusOne (pathname : Str) : Nat :=
  match rfind pathname SEP with
  | none => (npos + 1) % 2 ^ 64
  | some i => i + 1

/-- The loop `while (head.back() == SEP) head.pop_back();` of `dirName` and of `split`, run for
at most `fuel` iterations. Each iteration removes one character, so that `head.length`
iterations are enough; the guard before the loop keeps it off an empty `head`. -/
def popSepLoop : Nat → Str → Str
  | 0, head => head
  | fuel + 1, head =>
    if head.getLast? == some SEP then popSepLoop fuel head.dropLast else head

/-- The function `baseName(pathname)`. -/
def baseName (pathname : Str) : Str :=
  match rfind pathname SEP with
  | none => pathname
  | some index => pathname.drop (index + 1)

/-- The function `dirName(pathname)`. -/
def dirName (pathname : Str) : Str :=
  let index := rfindSepPlusOne pathname
  let head := pathname.take index
  if !head.isEmpty && head != List.replicate head.length SEP then
    popSepLoop head.length head
  else head

/-- The function `split(pathname)`. -/
def split (pathname : Str) : Str × Str :=
  let index := rfindSepPlusOne pathname
  let head := pathname.take index
  let tail := pathname.drop index
  let head :=
    if !head.isEmpty && head != List.replicate head.length SEP then
      popSepLoop head.length head
    else head
  (head, tail)

/-! ## commonPrefix, commonPath -/

/-- The algorithm `std::lexicographical_compare` with the element order `lt`; it is `operator<`
of `std::string` (over characters) and of `std::vector<std::string>` (over strings). -/
def lexicographical_compare {α : Type} (lt : α → α → Bool) : List α → List α → Bool
  | [], [] => false
  | [], _ :: _ => true
  | _ :: _, [] => false
  | a :: as, b :: bs =>
    if lt a b then true
    else if lt b a then false
    else lexicographical_compare lt as bs

/-- The order of characters inside `std::string::operator<`. -/
def charLt (a b : Char) : Bool := decide (a < b)

/-- The operator `<` of `std::string`. -/
def strLt (a b : Str) : Bool := lexicographical_compare charLt a b

/-- The operator `<` of `std::vector<std::string>`. -/
def vecLt (a b : List Str) : Bool := lexicographical_compare strLt a b

/-- The algorithm `std::minmax_element` on the non-empty range `x :: xs`, as the pair of the
values pointed to: the first smallest and the last largest element. -/
def minmax_element {α : Type} (lt : α → α → Bool) (x : α) (xs : List α) : α × α :=
  xs.foldl (fun mm y => (if lt y mm.1 then y else mm.1, if lt y mm.2 then mm.2 else y)) (x, x)

/-- The three-iterator `std::mismatch(first1, last1, first2)`: the number of leading positions
of the first range at which both ranges agree. It does not know where the second range ends:
`none` records a read past the end of the second range. -/
def mismatch {α : Type} [DecidableEq α] : List α → List α → Option Nat
  | [], _ => some 0
  | _ :: _, [] => none
  | a :: as, b :: bs =>
    if a = b then (mismatch as bs).map (fun n => n + 1) else some 0

/-- The function `commonPrefix(paths)`; `none` when `std::mismatch` reads out of bounds. -/
def commonPrefix (paths : List Str) : Option Str :=
  match paths with
  | [] => some []
  | p :: ps =>
    let pair := minmax_element strLt p ps
    let s1 := pair.1
    let s2 := pair.2
    (mismatch s1 s2).map (fun diff => s1.take diff)

/-- The call `std::equal(cbegin(paths) + 1, cend(paths), cbegin(paths), pred)` of `commonPath`
with `pred(a, b) = (isAbs(a) == isAbs(b))`: every element is compared with the one before. -/
def sameKind : List Str → Bool
  | [] => true
  | [_] => true
  | b :: a :: rest => (isAbs a == isAbs b) && sameKind (a :: rest)

/-- The function `commonPath(paths)`; `none` when `std::mismatch` reads out of bounds. The
vector `split_paths` holds, for every path in order, its components with the empty ones and
the `"."` ones erased. -/
def commonPath (paths : List Str) : Option Str :=
  match paths with
  | [] => some []
  | p0 :: ps =>
    if !sameKind (p0 :: ps) then some []
    else
      let pair := minmax_element vecLt (components p0) (ps.map components)
      let s1 := pair.1
      let s2 := pair.2
      (mismatch s1 s2).map (fun diff =>
        let pref : Str := if isAbs p0 then [SEP] else []
        let result := joinString SEP (s1.take diff)
        pref ++ result)

/-! ## join -/

/-- The body of the first `join` template before its recursive call: the new value of the
accumulator `a` after the part `b`. -/
def joinStep (a b : Str) : Str :=
  if isAbs b then b
  else (if a.length != 0 && a.getLast? != some SEP then a ++ [SEP] else a) ++ b

/-- The first `join` template, `join(std::string& a, const std::string& b, Args... args)`,
called with a part `b` that is an object other than the accumulator `a`: `a` is the
accumulator, `b` the next part and `args` the parts after it. The parts `args` are passed by
value, so that the recursive call `join(a, args...)` always has a part of its own. -/
def joinInto (a : Str) (b : Str) : List Str → Str
  | [] => joinStep a b
  | c :: args => joinInto (joinStep a b) c args

/-- The body of the first `join` template before its recursive call when the part `b` is the
accumulator `a` itself, as in `join(s, s)` on one non-const string `s`: the assignment `a = b`
changes nothing, `a.push_back(SEP)` changes `b` as well, and `a.append(b)` appends the string
to itself. -/
def joinStepAliased (a : Str) : Str :=
  if isAbs a then a
  else
    let a := if a.length != 0 && a.getLast? != some SEP then a ++ [SEP] else a
    a ++ a

/-- The first `join` template called as `join(s, s, args...)` on one non-const string `s`:
the accumulator and the first part are one object, the parts `args` are copies. -/
def joinIntoAliased (a : Str) : List Str → Str
  | [] => joinStepAliased a
  | c :: args => joinInto (joinStepAliased a) c args

/-- The second `join` template, `join(const std::string& a, const std::string& b, Args&&...)`:
it starts from an empty local `result` and passes all its arguments on, none of which can be
the object `result`. -/
def join (a b : Str) (args : List Str) : Str :=
  joinInto [] a (b :: args)

/-- The join of the parts `pk, ..., pn` taken alone: `join` needs two parts, and `pk` with no
part after it stands for itself. -/
def joinFrom (pk : Str) : List Str → Str
  | [] => pk
  | q :: rest => join pk q rest

/-! ## absPath, expandUser, isLink, isMount: the operating system as parameters -/

/-- The function `absPath(path)`; `cwd` is what `os::getcwd()` returns. The local `cwd` is a
non-const lvalue, so that the call `join(cwd, path)` is the first `join` template with `cwd`
as accumulator and no further part; `cwd` and `path` are two objects. -/
def absPath (cwd : Str) (path : Str) : Str :=
  if !isAbs path then normPath (joinInto cwd path [])
  else normPath path

/-- The call `s.find(c, pos)`: the index of the first occurrence of `c` at or after `pos`;
`none` stands for `npos`. -/
def find (s : Str) (c : Char) (pos : Nat) : Option Nat :=
  let rest := s.drop pos
  if rest.contains c then some (pos + (rest.takeWhile (fun x => x != c)).length) else none

/-- The function `expandUser(path)`. The two overloads of `os::getHomeDirectory` are
parameters: `homeDirectory` is what the lookup of the current user returns and
`homeDirectoryOf name` what the lookup of `name` returns, `none` for a lookup that does not
return. The result is `none` when a lookup that the function calls does not return. -/
def expandUser (homeDirectory : Option Str) (homeDirectoryOf : Str → Option Str)
    (path : Str) : Option Str :=
  let tilde : Str := ['~']
  if !startsWith path tilde then some path
  else
    let i := match find path SEP 1 with
      | none => path.length
      | some i => i
    let looked := if i == 1 then homeDirectory else homeDirectoryOf ((path.drop 1).take (i - 1))
    looked.map (fun userhome =>
      let userhome :=
        if !userhome.isEmpty && userhome.getLast? == some SEP then userhome.dropLast
        else userhome
      userhome ++ path.drop i)

/-- The type of a file as the `S_ISREG`, `S_ISDIR`, `S_ISLNK` tests on `st_mode` tell it. -/
inductive FileType where
  | regular
  | directory
  | symlink
  | other
  deriving DecidableEq

/-- The fields of `struct stat` that the library reads. -/
structure Stat where
  st_mode : FileType
  st_dev : Nat
  st_ino : Nat
  deriving DecidableEq

/-- The test `S_ISLNK(s.st_mode)`. -/
def S_ISLNK (s : Stat) : Bool := s.st_mode == FileType.symlink

/-- The function `isLink(pathname)`. The system calls are parameters: `stat` follows symbolic
links and `lstat` does not, and each gives `none` when the call fails. The body calls `stat`. -/
def isLink (stat : Str → Option Stat) (_lstat : Str → Option Stat) (pathname : Str) : Bool :=
  match stat pathname with
  | none => false
  | some s => S_ISLNK s

/-- The function `isMount(pathname)`, with `stat` and `realPath` as parameters. The call
`join(pathname, "..")` is the second `join` template. -/
def isMount (stat : Str → Option Stat) (realPath : Str → Str) (pathname : Str) : Bool :=
  match stat pathname with
  | none => false
  | some s1 =>
    if S_ISLNK s1 then false
    else
      let parent := realPath (join pathname dotdot [])
      match stat parent with
      | none => false
      | some s2 => s1.st_dev != s2.st_dev || s1.st_ino != s2.st_ino

/-! ## os.cpp: the home-directory lookups -/

/-- The value of `ERANGE` in `errno.h`. -/
def ERANGE : Nat := 34

/-- What one call of `getpwuid_r` or `getpwnam_r` leaves behind: its return value, whether
`ppwd` is not null afterwards, and `pwd.pw_dir`. -/
structure PwAnswer where
  error : Nat
  found : Bool
  pw_dir : Str
  deriving DecidableEq

/-- The expression `static_cast<size_t>(buffer.size() * 1.5)`, on sizes that `double` holds
exactly. -/
def grow (size : Nat) : Nat := size * 3 / 2

/-- The loop `while (error == ERANGE) { buffer.resize(...); int error = getpw..._r(...); }` of
both `getHomeDirectory` overloads; `lookup size` is the call with a buffer of `size` bytes.
The `int error` declared in the body is a new variable of the body: the `error` that the
condition reads is the one set before the loop, and no iteration changes it. Each call
overwrites `pwd` and `ppwd`, here `last`. The loop may run its body `fuel` times; `none` is
a loop that wants to go on after that. -/
def retryLoop (lookup : Nat → PwAnswer) (error : Nat) (fuel : Nat) (size : Nat)
    (last : PwAnswer) : Option (Nat × PwAnswer) :=
  if error != ERANGE then some (size, last)
  else
    match fuel with
    | 0 => none
    | fuel + 1 => retryLoop lookup error fuel (grow size) (lookup (grow size))

/-- The password lookup of both `getHomeDirectory` overloads: the first call with a buffer of
512 bytes, the loop, and `if (error || ppwd == nullptr) return ""; userhome = pwd.pw_dir;`. -/
def lookupHome (lookup : Nat → PwAnswer) (fuel : Nat) : Option Str :=
  let first := lookup 512
  let error := first.error
  (retryLoop lookup error fuel 512 first).map
    (fun st => if error != 0 || !st.2.found then [] else st.2.pw_dir)

/-- The function `getHomeDirectory()`: `sEnv` is what `getenv("HOME")` returns, `none` for a
null pointer, and `getpwuid_r size` the lookup of the current user with a buffer of `size`
bytes. -/
def getHomeDirectory (sEnv : Option Str) (getpwuid_r : Nat → PwAnswer) (fuel : Nat) :
    Option Str :=
  match sEnv with
  | none => lookupHome getpwuid_r fuel
  | some home => some home

/-- The function `getHomeDirectory(username)`. -/
def getHomeDirectoryOf (sEnv : Option Str) (getpwuid_r : Nat → PwAnswer)
    (getpwnam_r : Str → Nat → PwAnswer) (fuel : Nat) (username : Str) : Option Str :=
  if username.isEmpty then getHomeDirectory sEnv getpwuid_r fuel
  else lookupHome (getpwnam_r username) fuel

/-- A password lookup that signals `ERANGE` (and leaves `ppwd` null) for every buffer smaller
than `N`, and gives `answer` for every other buffer. -/
def thresholdLookup (N : Nat) (answer : PwAnswer) (size : Nat) : PwAnswer :=
  if size < N then ⟨ERANGE, false, []⟩ else answer

/-- The entry of the user `root` for the examples: found, with home directory `/root`. -/
def rootAnswer : PwAnswer := ⟨0, true, "/root".toList⟩

/-- The number of separators a path begins with. -/
def leadingSeps (path : Str) : Nat := (path.takeWhile (fun c => c == SEP)).length

/-- A file system for the examples: the root `/` and the directory `/usr` on the same device,
a regular file `/etc/passwd`, and the symbolic link `/link` to it. This is what the call that
does not follow links sees. -/
def exampleLstat (pathname : Str) : Option Stat :=
  if pathname = "/".toList then some ⟨FileType.directory, 1, 1⟩
  else if pathname = "/usr".toList then some ⟨FileType.directory, 1, 2⟩
  else if pathname = "/etc/passwd".toList then some ⟨FileType.regular, 1, 3⟩
  else if pathname = "/link".toList then some ⟨FileType.symlink, 1, 4⟩
  else none

/-- The same file system as the call that follows links sees it: `/link` is the file it
points to. -/
def exampleStat (pathname : Str) : Option Stat :=
  if pathname = "/link".toList then exampleLstat "/etc/passwd".toList
  else exampleLstat pathname

/-- The canonical paths in the example file system of the parents that the examples ask for. -/
def exampleRealPath (path : Str) : Str :=
  if path = "/..".toList then "/".toList
  else if path = "/usr/..".toList then "/".toList
  else path

/-! ## The algorithm of normalize in the words of the specification -/

/-- The pieces of a path between its separators, every separator cutting (so that a path
ending in a separator has an empty last piece). -/
def pieces (path : Str) : List Str := path.splitOn SEP

/-- The component list of a path in the words of the specification: its pieces between
separators with the empty pieces and the `"."` pieces removed. -/
def specComponents (path : Str) : List Str :=
  (pieces path).filter (fun c => decide (c ≠ [] ∧ c ≠ dot))


/-- Step 2 of the specification: no leading separator means relative, exactly one or exactly
two are kept, three or more collapse to one. -/
def specLeading (path : Str) : Nat :=
  if leadingSeps path = 0 then 0
  else if leadingSeps path = 1 ∨ leadingSeps path = 2 then leadingSeps path
  else 1

/-- Step 4 of the specification for one segment, the output stack having its top first: a
segment other than `".."` is pushed; a `".."` pops the top when the stack is not empty and its
top is not `".."`, is pushed when the path is relative and the stack is empty, and is dropped
in every other case. -/
def specStep (relative : Bool) (stack : List Str) (seg : Str) : List Str :=
  if seg ≠ dotdot then seg :: stack
  else if stack ≠ [] ∧ stack.head? ≠ some dotdot then stack.tail
  else if relative = true ∧ stack = [] then seg :: stack
  else stack

/-- Step 4 as the code has it: a `".."` is also pushed, in a relative path, when the top of
the stack is `".."`. -/
def specStepAmended (relative : Bool) (stack : List Str) (seg : Str) : List Str :=
  if seg ≠ dotdot then seg :: stack
  else if stack ≠ [] ∧ stack.head? ≠ some dotdot then stack.tail
  else if relative = true ∧ (stack = [] ∨ stack.head? = some dotdot) then seg :: stack
  else stack

/-- The algorithm `normalize` of the specification around a given step 4: the empty path gives
`"."`; the remainder after the leading separators is split on the separator, the empty and
`"."` segments are dropped, the walk builds the stack, and the stack joined with the separator
behind the counted leading separators is the result, or `"."` when that is empty. -/
def specNormalizeWith (step : Bool → List Str → Str → List Str) (path : Str) : Str :=
  if path = [] then dot
  else
    let leading := specLeading path
    let segments := specComponents (path.drop (leadingSeps path))
    let stack := segments.foldl (step (decide (leading = 0))) []
    let result := List.replicate leading SEP ++ [SEP].intercalate stack.reverse
    if result = [] then dot else result

/-- The algorithm `normalize` as the specification words it. -/
def specNormalize (path : Str) : Str := specNormalizeWith specStep path

/-- The algorithm `normalize` with the amended step 4. -/
def specNormalizeAmended (path : Str) : Str := specNormalizeWith specStepAmended path

/-! ## Predicates used in the proofs -/

/-- A stack of components, top first, in which nothing but `".."` lies below a `".."`. -/
def goodStack : List Str → Prop
  | [] => True
  | t :: below => (t = dotdot → ∀ x ∈ below, x = dotdot) ∧ goodStack below

/-- The invariant of the vector `newComps` in the loop of `normPath`: an absolute path keeps no
`".."` at all, and in a relative one the `".."` components form a leading run. -/
def NormInv (initialSlashes : Nat) (newComps : List Str) : Prop :=
  (initialSlashes ≠ 0 → dotdot ∉ newComps) ∧ goodStack newComps.reverse

/-- A list of components in which the `".."` form a leading run: nothing but `".."` stands
before a `".."`. -/
def LeadingRun (l : List Str) : Prop :=
  ∀ A B : List Str, l = A ++ dotdot :: B → ∀ x ∈ A, x = dotdot

/-- The comparison of `mn` with `mx` by the three-iterator `std::mismatch` stays in bounds: it
returns, without a read past the end of `mx`, an index `k` that is at most the length of `mx`,
and `k` is the first index at which the two differ, or the length of `mn` if there is none. -/
def MismatchInBounds {α : Type} [DecidableEq α] (mn mx : List α) : Prop :=
  ∃ k, mismatch mn mx = some k ∧ k ≤ mx.length ∧ k ≤ mn.length ∧
    mn.take k = mx.take k ∧ (k < mn.length → k < mx.length ∧ mn[k]? ≠ mx[k]?)

/-- A component as `components` leaves them: not empty, without separator, and not `"."`. -/
def IsComp (c : Str) : Prop := c ≠ [] ∧ SEP ∉ c ∧ c ≠ dot

instance (c : Str) : Decidable (IsComp c) := by
  unfold IsComp; infer_instance

/-- A component name in the sense of the documentation of `normPath`: not empty, without
separator, and neither `"."` nor `".."`. -/
def IsName (c : Str) : Prop := c ≠ [] ∧ SEP ∉ c ∧ c ≠ dot ∧ c ≠ dotdot

instance (c : Str) : Decidable (IsName c) := by
  unfold IsName; infer_instance

/-- A strict total order given as a Boolean comparison, as `operator<` is. -/
structure StrictTotal {α : Type} (lt : α → α → Bool) : Prop where
  irrefl : ∀ a, lt a a = false
  trans : ∀ a b c, lt a b = true → lt b c = true → lt a c = true
  tri : ∀ a b, lt a b = false → lt b a = false → a = b

/-! ## splitString: the loop reaches the end of its input -/

theorem takeWhile_ne_append (d : Char) (t rest : Str) (ht : d ∉ t) :
    (t ++ d :: rest).takeWhile (fun c => c != d) = t := by
  induction t with
  | nil => simp
  | cons x xs ih =>
    have hx : x ≠ d := fun h => ht (by simp [h])
    have hxs : d ∉ xs := fun h => ht (by simp [h])
    simp [List.takeWhile_cons, hx, ih hxs]

theorem dropWhile_ne_append (d : Char) (t rest : Str) (ht : d ∉ t) :
    (t ++ d :: rest).dropWhile (fun c => c != d) = d :: rest := by
  induction t with
  | nil => simp
  | cons x xs ih =>
    have hx : x ≠ d := fun h => ht (by simp [h])
    have hxs : d ∉ xs := fun h => ht (by simp [h])
    simp [List.dropWhile_cons, hx, ih hxs]

theorem takeWhile_ne_self (d : Char) (t : Str) (ht : d ∉ t) :
    t.takeWhile (fun c => c != d) = t := by
  induction t with
  | nil => simp
  | cons x xs ih =>
    have hx : x ≠ d := fun h => ht (by simp [h])
    have hxs : d ∉ xs := fun h => ht (by simp [h])
    simp [List.takeWhile_cons, hx, ih hxs]

theorem dropWhile_ne_self (d : Char) (t : Str) (ht : d ∉ t) :
    t.dropWhile (fun c => c != d) = [] := by
  induction t with
  | nil => simp
  | cons x xs ih =>
    have hx : x ≠ d := fun h => ht (by simp [h])
    have hxs : d ∉ xs := fun h => ht (by simp [h])
    simp [List.dropWhile_cons, hx, ih hxs]

theorem length_dropWhile_le (f : Char → Bool) (s : Str) : (s.dropWhile f).length ≤ s.length := by
  induction s with
  | nil => simp
  | cons x xs ih =>
    rw [List.dropWhile_cons]
    split
    · simp only [List.length_cons]; omega
    · exact le_refl _

/-- Any two amounts of fuel above the length of the rest of the stream give the same tokens. -/
theorem splitLoop_fuel (d : Char) :
    ∀ (n m : Nat) (s : Str), s.length < n → s.length < m → splitLoop d n s = splitLoop d m s := by
  intro n
  induction n with
  | zero => intro m s h; omega
  | succ n ih =>
    intro m s hn hm
    cases m with
    | zero => omega
    | succ m =>
      cases s with
      | nil => simp [splitLoop, getline]
      | cons x xs =>
        simp only [splitLoop, getline]
        congr 1
        have h1 := length_dropWhile_le (fun c => c != d) (x :: xs)
        have h2 : (List.drop 1 (List.dropWhile (fun c => c != d) (x :: xs))).length
            ≤ xs.length := by
          rw [List.length_drop]; simp only [List.length_cons] at h1; omega
        simp only [List.length_cons] at hn hm
        exact ih m _ (by omega) (by omega)

theorem splitLoop_succ_of_getline (d : Char) (n : Nat) (s tok rest : Str)
    (h : getline s d = some (tok, rest)) :
    splitLoop d (n + 1) s = tok :: splitLoop d n rest := by
  simp only [splitLoop, h]

theorem splitString_nil (d : Char) : splitString [] d = [] := by
  simp [splitString, splitLoop, getline]

/-- A token followed by a delimiter is read off the front of the text. -/
theorem splitString_append_sep (d : Char) (t rest : Str) (ht : d ∉ t) :
    splitString (t ++ d :: rest) d = t :: splitString rest d := by
  unfold splitString
  have hne : t ++ d :: rest ≠ [] := by simp
  obtain ⟨x, xs, hx⟩ := List.exists_cons_of_ne_nil hne
  have hg : getline (t ++ d :: rest) d = some (t, rest) := by
    rw [hx]; simp only [getline]; rw [← hx, takeWhile_ne_append d t rest ht,
      dropWhile_ne_append d t rest ht]; simp
  rw [splitLoop_succ_of_getline d _ _ _ _ hg]
  congr 1
  apply splitLoop_fuel
  · simp only [List.length_append, List.length_cons]; omega
  · simp

/-- A non-empty text without delimiter is one token. -/
theorem splitString_single (d : Char) (t : Str) (ht : d ∉ t) (hne : t ≠ []) :
    splitString t d = [t] := by
  unfold splitString
  obtain ⟨x, xs, hx⟩ := List.exists_cons_of_ne_nil hne
  have hg : getline t d = some (t, []) := by
    rw [hx]; simp only [getline]; rw [← hx, takeWhile_ne_self d t ht,
      dropWhile_ne_self d t ht]; simp
  rw [splitLoop_succ_of_getline d _ _ _ _ hg]
  congr 1
  cases h : t.length with
  | zero => simp [splitLoop]
  | succ k => simp [splitLoop, getline]

/-- No token contains the delimiter. -/
theorem splitLoop_no_sep (d : Char) :
    ∀ (n : Nat) (s : Str), ∀ t ∈ splitLoop d n s, d ∉ t := by
  intro n
  induction n with
  | zero => intro s t ht; simp [splitLoop] at ht
  | succ n ih =>
    intro s t ht
    cases s with
    | nil => simp [splitLoop, getline] at ht
    | cons x xs =>
      simp only [splitLoop, getline, List.mem_cons] at ht
      rcases ht with h | h
      · intro hmem
        rw [h] at hmem
        have := List.mem_takeWhile_imp hmem
        simp at this
      · exact ih _ t h

theorem splitString_no_sep (d : Char) (s : Str) : ∀ t ∈ splitString s d, d ∉ t :=
  splitLoop_no_sep d _ s

/-! ## components -/

theorem components_nil : components [] = [] := by
  simp [components, splitString_nil, removeEmptyAndDot]

theorem components_sep (p : Str) : components (SEP :: p) = components p := by
  have h := splitString_append_sep SEP [] p (by simp)
  simp only [List.nil_append] at h
  simp [components, h, removeEmptyAndDot]

theorem components_replicate_sep (k : Nat) (p : Str) :
    components (List.replicate k SEP ++ p) = components p := by
  induction k with
  | zero => simp
  | succ k ih => rw [List.replicate_succ, List.cons_append, components_sep, ih]

theorem components_comp_sep (t rest : Str) (ht : IsComp t) :
    components (t ++ SEP :: rest) = t :: components rest := by
  obtain ⟨h1, h2, h3⟩ := ht
  simp [components, splitString_append_sep SEP t rest h2, removeEmptyAndDot, h1, h3]

theorem components_comp (t : Str) (ht : IsComp t) : components t = [t] := by
  obtain ⟨h1, h2, h3⟩ := ht
  simp [components, splitString_single SEP t h2 h1, removeEmptyAndDot, h1, h3]

theorem components_isComp (p : Str) : ∀ c ∈ components p, IsComp c := by
  intro c hc
  simp only [components, removeEmptyAndDot, List.mem_filter] at hc
  obtain ⟨hmem, hkeep⟩ := hc
  have hs := splitString_no_sep SEP p c hmem
  simp at hkeep
  exact ⟨hkeep.1, hs, hkeep.2⟩

theorem components_joinString (N : List Str) (hN : ∀ c ∈ N, IsComp c) :
    components (joinString SEP N) = N := by
  induction N with
  | nil => simp [joinString, components_nil]
  | cons x xs ih =>
    cases xs with
    | nil => simpa [joinString] using components_comp x (hN x (by simp))
    | cons y ys =>
      simp only [joinString]
      rw [components_comp_sep _ _ (hN x (by simp)), ih (fun c hc => hN c (by simp [hc]))]

theorem joinString_head (N : List Str) (hN : ∀ c ∈ N, IsComp c) :
    (joinString SEP N).head? ≠ some SEP := by
  cases N with
  | nil => simp [joinString]
  | cons x xs =>
    obtain ⟨h1, h2, _⟩ := hN x (by simp)
    obtain ⟨a, as, ha⟩ := List.exists_cons_of_ne_nil h1
    have hne : a ≠ SEP := fun h => h2 (by simp [ha, h])
    cases xs with
    | nil => simp [joinString, ha, hne]
    | cons y ys => simp [joinString, ha, hne]

theorem joinString_eq_nil (N : List Str) (hN : ∀ c ∈ N, IsComp c) :
    joinString SEP N = [] ↔ N = [] := by
  cases N with
  | nil => simp [joinString]
  | cons x xs =>
    obtain ⟨h1, _, _⟩ := hN x (by simp)
    cases xs with
    | nil => simp [joinString, h1]
    | cons y ys => simp [joinString]

/-! ## The loop of normPath -/

theorem eq_nil_or_snoc {α : Type} (l : List α) : l = [] ∨ ∃ L b, l = L ++ [b] := by
  rcases List.eq_nil_or_concat l with h | ⟨L, b, h⟩
  · exact Or.inl h
  · exact Or.inr ⟨L, b, by rw [h, List.concat_eq_append]⟩

theorem goodStack_of_append (A B : List Str) (h : goodStack (A ++ B)) : goodStack B := by
  induction A with
  | nil => simpa using h
  | cons a as ih => exact ih h.2

theorem normStep_push (init : Nat) (N : List Str) (x : Str)
    (h : x ≠ dotdot ∨ (init = 0 ∧ N = []) ∨ (N ≠ [] ∧ N.getLast? = some dotdot)) :
    normStep init N x = N ++ [x] := by
  unfold normStep
  rw [if_pos]
  rcases h with h | ⟨h1, h2⟩ | ⟨h1, h2⟩
  · simp [h]
  · simp [h1, h2]
  · simp [h1, h2]

theorem normStep_mem (init : Nat) (N : List Str) (x y : Str) (hy : y ∈ normStep init N x) :
    y ∈ N ∨ y = x := by
  unfold normStep at hy
  split at hy
  · simpa using hy
  · split at hy
    · exact Or.inl (List.dropLast_subset N hy)
    · exact Or.inl hy

theorem normStep_inv (init : Nat) (N : List Str) (x : Str) (h : NormInv init N) :
    NormInv init (normStep init N x) := by
  obtain ⟨habs, hgood⟩ := h
  rcases eq_nil_or_snoc N with hN | ⟨L, t, hN⟩
  · subst hN
    by_cases hx : x = dotdot
    · by_cases hi : init = 0
      · rw [normStep_push init [] x (Or.inr (Or.inl ⟨hi, rfl⟩))]
        exact ⟨fun h => absurd hi h, by simp [goodStack]⟩
      · have : normStep init [] x = [] := by simp [normStep, hx, hi]
        rw [this]; exact ⟨habs, hgood⟩
    · rw [normStep_push init [] x (Or.inl hx)]
      exact ⟨fun _ => by simpa using Ne.symm hx, by simp [goodStack, hx]⟩
  · subst hN
    simp only [List.reverse_append, List.reverse_cons, List.reverse_nil, List.nil_append,
      List.singleton_append] at hgood
    by_cases hx : x = dotdot
    · by_cases ht : t = dotdot
      · rw [normStep_push init _ x (Or.inr (Or.inr ⟨by simp, by simp [ht]⟩))]
        constructor
        · intro hi; exact absurd (by simp [ht]) (habs hi)
        · simp only [List.reverse_append, List.reverse_cons, List.reverse_nil, List.nil_append,
            List.singleton_append]
          refine ⟨fun _ y hy => ?_, hgood⟩
          rcases List.mem_cons.1 hy with h | h
          · rw [h, ht]
          · exact hgood.1 ht y h
      · have : normStep init (L ++ [t]) x = L := by
          simp [normStep, hx, ht]
        rw [this]
        exact ⟨fun hi hm => habs hi (by simp [hm]), hgood.2⟩
    · rw [normStep_push init _ x (Or.inl hx)]
      constructor
      · intro hi hm
        rcases List.mem_append.1 hm with h | h
        · exact habs hi h
        · simp at h; exact hx h.symm
      · simp only [List.reverse_append, List.reverse_cons, List.reverse_nil, List.nil_append,
          List.singleton_append]
        exact ⟨fun h => absurd h hx, hgood⟩

theorem normLoop_inv (init : Nat) (comps : List Str) :
    ∀ acc, NormInv init acc → NormInv init (comps.foldl (normStep init) acc) := by
  induction comps with
  | nil => intro acc h; exact h
  | cons x xs ih => intro acc h; exact ih _ (normStep_inv init acc x h)

theorem normLoop_mem (init : Nat) (comps : List Str) :
    ∀ acc, ∀ y ∈ comps.foldl (normStep init) acc, y ∈ acc ∨ y ∈ comps := by
  induction comps with
  | nil => intro acc y hy; exact Or.inl hy
  | cons x xs ih =>
    intro acc y hy
    rcases ih _ y hy with h | h
    · rcases normStep_mem init acc x y h with h1 | h1
      · exact Or.inl h1
      · exact Or.inr (by simp [h1])
    · exact Or.inr (by simp [h])

/-- On a list that already has the shape of an output, the loop changes nothing. -/
theorem normLoop_id (init : Nat) (L : List Str) :
    ∀ acc, NormInv init (acc ++ L) → L.foldl (normStep init) acc = acc ++ L := by
  induction L with
  | nil => intro acc _; simp
  | cons x xs ih =>
    intro acc h
    have hpush : normStep init acc x = acc ++ [x] := by
      apply normStep_push
      by_cases hx : x = dotdot
      · right
        have hi : init = 0 := by
          by_contra hi
          exact h.1 hi (by simp [hx])
        have hg : goodStack (x :: acc.reverse) := by
          have := h.2
          simp only [List.reverse_append, List.reverse_cons, List.append_assoc,
            List.singleton_append] at this
          exact goodStack_of_append _ _ this
        have hall := hg.1 hx
        rcases eq_nil_or_snoc acc with ha | ⟨A, t, ha⟩
        · exact Or.inl ⟨hi, ha⟩
        · right
          subst ha
          have : t = dotdot := hall t (by simp)
          simp [this]
      · exact Or.inl hx
    simp only [List.foldl_cons, hpush]
    rw [ih (acc ++ [x]) (by simpa using h)]
    simp

/-! ## The leading separators and the shape of normPath's result -/

theorem initialSlashes_le (p : Str) : initialSlashes p ≤ 2 := by
  unfold initialSlashes
  dsimp only
  split_ifs <;> omega

theorem initialSlashes_zero (q : Str) (h : q.head? ≠ some SEP) : initialSlashes q = 0 := by
  cases q with
  | nil => simp [initialSlashes]
  | cons a as => simp at h; simp [initialSlashes, h]

theorem initialSlashes_one (r : Str) (h : r.head? ≠ some SEP) :
    initialSlashes (SEP :: r) = 1 := by
  cases r with
  | nil => simp [initialSlashes, startsWith]
  | cons a as => simp at h; simp [initialSlashes, startsWith, h]

theorem initialSlashes_two (r : Str) (h : r.head? ≠ some SEP) :
    initialSlashes (SEP :: SEP :: r) = 2 := by
  cases r with
  | nil => simp [initialSlashes, startsWith]
  | cons a as => simp at h; simp [initialSlashes, startsWith, h]

theorem initialSlashes_three (r : Str) : initialSlashes (SEP :: SEP :: SEP :: r) = 1 := by
  simp [initialSlashes, startsWith]

/-- The vector `newComps` at the end of the loop of `normPath`. -/
theorem newComps_spec (p : Str) :
    (∀ c ∈ (components p).foldl (normStep (initialSlashes p)) [], IsComp c) ∧
    NormInv (initialSlashes p) ((components p).foldl (normStep (initialSlashes p)) []) := by
  constructor
  · intro c hc
    rcases normLoop_mem _ _ [] c hc with h | h
    · simp at h
    · exact components_isComp p c h
  · exact normLoop_inv _ _ [] ⟨fun _ => by simp, by simp [goodStack]⟩

/-- The result of `normPath` in terms of the final `newComps`. -/
theorem normPath_eq (p : Str) (hp : p ≠ []) :
    normPath p =
      if initialSlashes p = 0 ∧ (components p).foldl (normStep (initialSlashes p)) [] = [] then dot
      else List.replicate (initialSlashes p) SEP ++
        joinString SEP ((components p).foldl (normStep (initialSlashes p)) []) := by
  obtain ⟨hN, _⟩ := newComps_spec p
  unfold normPath
  dsimp only
  generalize (components p).foldl (normStep (initialSlashes p)) [] = N at hN ⊢
  have hj := joinString_eq_nil N hN
  simp only [List.isEmpty_eq_true, hp, if_false]
  by_cases hi : initialSlashes p = 0
  · by_cases hn : N = []
    · simp [hi, hn, joinString]
    · have : joinString SEP N ≠ [] := fun h => hn (hj.1 h)
      simp [hi, hn, this]
  · have hr : List.replicate (initialSlashes p) SEP ≠ [] := by
      cases h : initialSlashes p with
      | zero => exact absurd h hi
      | succ k => simp [List.replicate_succ]
    simp [hi, hr]

/-- A path already in normal form is left alone. -/
theorem normPath_canonical (init : Nat) (N : List Str) (hinit : init ≤ 2)
    (hN : ∀ c ∈ N, IsComp c) (hinv : NormInv init N) (hne : init ≠ 0 ∨ N ≠ []) :
    normPath (List.replicate init SEP ++ joinString SEP N) =
      List.replicate init SEP ++ joinString SEP N := by
  have hhead := joinString_head N hN
  have hj := joinString_eq_nil N hN
  have hq : List.replicate init SEP ++ joinString SEP N ≠ [] := by
    rcases hne with h | h
    · cases init with
      | zero => exact absurd rfl h
      | succ k => simp [List.replicate_succ]
    · simp [hj, h]
  have hi : initialSlashes (List.replicate init SEP ++ joinString SEP N) = init := by
    interval_cases init
    · simpa using initialSlashes_zero _ hhead
    · simpa [List.replicate] using initialSlashes_one _ hhead
    · simpa [List.replicate] using initialSlashes_two _ hhead
  have hc : components (List.replicate init SEP ++ joinString SEP N) = N := by
    rw [components_replicate_sep, components_joinString N hN]
  rw [normPath_eq _ hq, hi, hc]
  have hl : N.foldl (normStep init) [] = N := by
    simpa using normLoop_id init N [] (by simpa using hinv)
  rw [hl, if_neg]
  rintro ⟨h1, h2⟩
  rcases hne with h | h
  · exact h h1
  · exact h h2

theorem normPath_dot : normPath dot = dot := by decide

theorem leadingSeps_of_head (r : Str) (h : r.head? ≠ some SEP) : leadingSeps r = 0 := by
  cases r with
  | nil => simp [leadingSeps]
  | cons a as => simp at h; simp [leadingSeps, List.takeWhile_cons, h]

theorem leadingSeps_replicate (k : Nat) (r : Str) (h : r.head? ≠ some SEP) :
    leadingSeps (List.replicate k SEP ++ r) = k := by
  induction k with
  | zero => simpa using leadingSeps_of_head r h
  | succ k ih =>
    simp only [leadingSeps, List.replicate_succ, List.cons_append, List.takeWhile_cons,
      beq_self_eq_true, if_true, List.length_cons] 
    simp only [leadingSeps] at ih
    rw [ih]

/-- Every path is a run of separators followed by something that does not start with one. -/
theorem exists_leading (p : Str) :
    ∃ r, r.head? ≠ some SEP ∧ p = List.replicate (leadingSeps p) SEP ++ r := by
  induction p with
  | nil => exact ⟨[], by simp, by simp [leadingSeps]⟩
  | cons a as ih =>
    by_cases ha : a = SEP
    · obtain ⟨r, hr, heq⟩ := ih
      refine ⟨r, hr, ?_⟩
      have : leadingSeps (a :: as) = leadingSeps as + 1 := by
        simp [leadingSeps, List.takeWhile_cons, ha]
      rw [this, List.replicate_succ, List.cons_append, ← heq, ha]
    · refine ⟨a :: as, by simpa using ha, ?_⟩
      have : leadingSeps (a :: as) = 0 := by
        simp [leadingSeps, List.takeWhile_cons, ha]
      rw [this]; simp

/-- The value of `initialSlashes` from the number of leading separators. -/
theorem initialSlashes_eq (p : Str) :
    initialSlashes p = if leadingSeps p = 0 then 0 else if leadingSeps p = 2 then 2 else 1 := by
  obtain ⟨r, hr, heq⟩ := exists_leading p
  generalize leadingSeps p = k at heq
  subst heq
  match k with
  | 0 => simpa using initialSlashes_zero r hr
  | 1 => simpa [List.replicate] using initialSlashes_one r hr
  | 2 => simpa [List.replicate] using initialSlashes_two r hr
  | k + 3 =>
    have := initialSlashes_three (List.replicate k SEP ++ r)
    simpa [List.replicate_succ] using this

/-- The result of `normPath` begins with exactly `initialSlashes` separators. -/
theorem leadingSeps_normPath (p : Str) : leadingSeps (normPath p) = initialSlashes p := by
  by_cases hp : p = []
  · subst hp; decide
  · obtain ⟨hN, _⟩ := newComps_spec p
    rw [normPath_eq p hp]
    split
    · rename_i h; rw [h.1]; decide
    · exact leadingSeps_replicate _ _ (joinString_head _ hN)

theorem components_noSep_sep (t rest : Str) (ht : SEP ∉ t) :
    components (t ++ SEP :: rest) = removeEmptyAndDot [t] ++ components rest := by
  simp only [components, splitString_append_sep SEP t rest ht, removeEmptyAndDot]
  rw [← List.filter_append]; rfl

theorem IsName.isComp {c : Str} (h : IsName c) : IsComp c := ⟨h.1, h.2.1, h.2.2.1⟩

theorem IsName.head_ne {c : Str} (h : IsName c) (rest : Str) : (c ++ rest).head? ≠ some SEP := by
  obtain ⟨h1, h2, _⟩ := h
  obtain ⟨a, as, ha⟩ := List.exists_cons_of_ne_nil h1
  have hne : a ≠ SEP := fun h => h2 (by simp [ha, h])
  simp [ha, hne]

/-- A relative path whose loop ends with the two components `A` and `B`. -/
theorem normPath_two (p A B : Str) (hp : p ≠ []) (hi : initialSlashes p = 0)
    (hl : (components p).foldl (normStep 0) [] = [A, B]) : normPath p = A ++ SEP :: B := by
  rw [normPath_eq p hp, hi, hl]
  simp [joinString]

/-! ## The lexicographic order -/

section Lex

variable {α : Type} {lt : α → α → Bool}

theorem lex_cons_cons (a b : α) (as bs : List α) :
    lexicographical_compare lt (a :: as) (b :: bs) = true ↔
      lt a b = true ∨ (lt a b = false ∧ lt b a = false ∧
        lexicographical_compare lt as bs = true) := by
  simp only [lexicographical_compare]
  by_cases h1 : lt a b = true
  · simp [h1]
  · by_cases h2 : lt b a = true
    · simp [h1, h2]
    · simp [h1, h2]

theorem lex_cons_cons_false (a b : α) (as bs : List α) :
    lexicographical_compare lt (a :: as) (b :: bs) = false ↔
      lt a b = false ∧ (lt b a = false → lexicographical_compare lt as bs = false) := by
  simp only [lexicographical_compare]
  by_cases h1 : lt a b = true
  · simp [h1]
  · by_cases h2 : lt b a = true
    · simp [h1, h2]
    · simp [h1, h2]

theorem lex_irrefl (h : StrictTotal lt) : ∀ l : List α, lexicographical_compare lt l l = false
  | [] => rfl
  | a :: as => by
    rw [lex_cons_cons_false]
    exact ⟨h.irrefl a, fun _ => lex_irrefl h as⟩

theorem lex_trans (h : StrictTotal lt) : ∀ a b c : List α,
    lexicographical_compare lt a b = true → lexicographical_compare lt b c = true →
    lexicographical_compare lt a c = true
  | [], _, [] => fun _ hbc => by cases ‹List α› <;> simp [lexicographical_compare] at hbc
  | [], _, _ :: _ => fun _ _ => rfl
  | _ :: _, [], _ => fun hab _ => by simp [lexicographical_compare] at hab
  | _ :: _, _ :: _, [] => fun _ hbc => by simp [lexicographical_compare] at hbc
  | x :: xs, y :: ys, z :: zs => fun hab hbc => by
    rw [lex_cons_cons] at hab hbc ⊢
    rcases hab with hxy | ⟨hxy, hyx, hl1⟩
    · rcases hbc with hyz | ⟨hyz, hzy, _⟩
      · exact Or.inl (h.trans x y z hxy hyz)
      · have := h.tri y z hyz hzy
        subst this
        exact Or.inl hxy
    · have hxy' := h.tri x y hxy hyx
      subst hxy'
      rcases hbc with hyz | ⟨hyz, hzy, hl2⟩
      · exact Or.inl hyz
      · exact Or.inr ⟨hyz, hzy, lex_trans h xs ys zs hl1 hl2⟩

theorem lex_tri (h : StrictTotal lt) : ∀ a b : List α,
    lexicographical_compare lt a b = false → lexicographical_compare lt b a = false → a = b
  | [], [] => fun _ _ => rfl
  | [], _ :: _ => fun hab _ => by simp [lexicographical_compare] at hab
  | _ :: _, [] => fun _ hba => by simp [lexicographical_compare] at hba
  | x :: xs, y :: ys => fun hab hba => by
    rw [lex_cons_cons_false] at hab hba
    have hxy := h.tri x y hab.1 hba.1
    subst hxy
    rw [lex_tri h xs ys (hab.2 hba.1) (hba.2 hab.1)]

/-- The lexicographic extension of a strict total order is one. -/
theorem lex_strictTotal (h : StrictTotal lt) : StrictTotal (lexicographical_compare lt) :=
  ⟨lex_irrefl h, lex_trans h, lex_tri h⟩

theorem StrictTotal.not_lt_trans (h : StrictTotal lt) (a b c : α)
    (hab : lt b a = false) (hbc : lt c b = false) : lt c a = false := by
  by_contra hca
  simp only [Bool.not_eq_false] at hca
  cases hlt : lt a b with
  | true =>
    have := h.trans c a b hca hlt
    rw [hbc] at this; cases this
  | false =>
    have := h.tri a b hlt hab
    subst this
    rw [hbc] at hca; cases hca

/-- The fold of `minmax_element`: it ends on elements of the range, the first not above and
the second not below any element, nor the values it started from. -/
theorem minmax_fold (h : StrictTotal lt) : ∀ (xs : List α) (mn mx : α),
    let r := xs.foldl
      (fun mm y => (if lt y mm.1 then y else mm.1, if lt y mm.2 then mm.2 else y)) (mn, mx)
    (r.1 = mn ∨ r.1 ∈ xs) ∧ (r.2 = mx ∨ r.2 ∈ xs) ∧
    lt mn r.1 = false ∧ lt r.2 mx = false ∧
    (∀ y ∈ xs, lt y r.1 = false) ∧ (∀ y ∈ xs, lt r.2 y = false) := by
  intro xs
  induction xs with
  | nil =>
    intro mn mx
    simp [h.irrefl]
  | cons y ys ih =>
    intro mn mx
    simp only [List.foldl_cons]
    have hih := ih (if lt y mn then y else mn) (if lt y mx then mx else y)
    simp only at hih
    obtain ⟨h1, h2, h3, h4, h5, h6⟩ := hih
    generalize (ys.foldl
      (fun mm y => (if lt y mm.1 then y else mm.1, if lt y mm.2 then mm.2 else y))
      (if lt y mn then y else mn, if lt y mx then mx else y)) = r at *
    have hmn1 : lt mn (if lt y mn then y else mn) = false := by
      split
      · rename_i hlt
        cases hc : lt mn y with
        | false => rfl
        | true => have := h.trans y mn y hlt hc; rw [h.irrefl] at this; cases this
      · exact h.irrefl mn
    have hmn2 : lt y (if lt y mn then y else mn) = false := by
      split
      · exact h.irrefl y
      · rename_i hlt; simpa using hlt
    have hmx1 : lt (if lt y mx then mx else y) mx = false := by
      split
      · exact h.irrefl mx
      · rename_i hlt; simpa using hlt
    have hmx2 : lt (if lt y mx then mx else y) y = false := by
      split
      · rename_i hlt
        cases hc : lt mx y with
        | false => rfl
        | true => have := h.trans y mx y hlt hc; rw [h.irrefl] at this; cases this
      · exact h.irrefl y
    refine ⟨?_, ?_, ?_, ?_, ?_, ?_⟩
    · rcases h1 with h1 | h1
      · rw [h1]; split
        · exact Or.inr (by simp)
        · exact Or.inl rfl
      · exact Or.inr (by simp [h1])
    · rcases h2 with h2 | h2
      · rw [h2]; split
        · exact Or.inl rfl
        · exact Or.inr (by simp)
      · exact Or.inr (by simp [h2])
    · exact h.not_lt_trans _ _ _ h3 hmn1
    · exact h.not_lt_trans _ _ _ hmx1 h4
    · intro z hz
      rcases List.mem_cons.1 hz with hz | hz
      · rw [hz]; exact h.not_lt_trans _ _ _ h3 hmn2
      · exact h5 z hz
    · intro z hz
      rcases List.mem_cons.1 hz with hz | hz
      · rw [hz]; exact h.not_lt_trans _ _ _ hmx2 h4
      · exact h6 z hz

/-- What `std::minmax_element` returns: two elements of the range that bound all the others. -/
theorem minmax_element_spec (h : StrictTotal lt) (x : α) (xs : List α) :
    (minmax_element lt x xs).1 ∈ x :: xs ∧ (minmax_element lt x xs).2 ∈ x :: xs ∧
    (∀ y ∈ x :: xs, lt y (minmax_element lt x xs).1 = false) ∧
    (∀ y ∈ x :: xs, lt (minmax_element lt x xs).2 y = false) := by
  obtain ⟨h1, h2, h3, h4, h5, h6⟩ := minmax_fold h xs x x
  unfold minmax_element
  refine ⟨?_, ?_, ?_, ?_⟩
  · rcases h1 with h1 | h1
    · rw [h1]; simp
    · exact List.mem_cons_of_mem _ h1
  · rcases h2 with h2 | h2
    · rw [h2]; simp
    · exact List.mem_cons_of_mem _ h2
  · intro y hy
    rcases List.mem_cons.1 hy with hy | hy
    · rw [hy]; exact h3
    · exact h5 y hy
  · intro y hy
    rcases List.mem_cons.1 hy with hy | hy
    · rw [hy]; exact h4
    · exact h6 y hy

/-- The three-iterator `std::mismatch` on a first range not above the second one stays inside
the second range, and cuts the first range at the longest common prefix of the two. -/
theorem mismatch_spec [DecidableEq α] (h : StrictTotal lt) : ∀ mn mx : List α,
    lexicographical_compare lt mx mn = false →
    ∃ k, mismatch mn mx = some k ∧ k ≤ mx.length ∧ mn.take k <+: mn ∧ mn.take k <+: mx ∧
      ∀ q, q <+: mn → q <+: mx → q <+: mn.take k
  | [], mx => fun _ => ⟨0, rfl, Nat.zero_le _, by simp, by simp, fun q hq _ => by simpa using hq⟩
  | a :: as, [] => fun hle => by simp [lexicographical_compare] at hle
  | a :: as, b :: bs => fun hle => by
    by_cases hab : a = b
    · subst hab
      rw [lex_cons_cons_false] at hle
      obtain ⟨k, hk, hlen, hp1, hp2, hmax⟩ := mismatch_spec h as bs (hle.2 hle.1)
      refine ⟨k + 1, by simp [mismatch, hk], by simpa using hlen, ?_, ?_, ?_⟩
      · simpa [List.take_succ_cons] using List.take_prefix (k + 1) (a :: as)
      · simpa [List.take_succ_cons, List.prefix_cons_inj] using hp2
      · intro q hq1 hq2
        cases q with
        | nil => simp
        | cons c cs =>
          have e1 := (List.cons_prefix_cons.1 hq1)
          have e2 := (List.cons_prefix_cons.1 hq2)
          rw [List.take_succ_cons, e1.1, List.prefix_cons_inj]
          exact hmax cs e1.2 e2.2
    · refine ⟨0, by simp [mismatch, hab], Nat.zero_le _, by simp, by simp, ?_⟩
      intro q hq1 hq2
      cases q with
      | nil => simp
      | cons c cs =>
        have e1 := (List.cons_prefix_cons.1 hq1).1
        have e2 := (List.cons_prefix_cons.1 hq2).1
        exact absurd (e1.symm.trans e2) hab

/-- A common prefix of two lists is a prefix of every list lying between them. -/
theorem prefix_of_between (h : StrictTotal lt) : ∀ c mn mx x : List α,
    c <+: mn → c <+: mx → lexicographical_compare lt x mn = false →
    lexicographical_compare lt mx x = false → c <+: x
  | [], _, _, _ => fun _ _ _ _ => List.nil_prefix
  | a :: c, [], _, _ => fun h1 _ _ _ => by simp at h1
  | a :: c, _ :: _, [], _ => fun _ h2 _ _ => by simp at h2
  | a :: c, m :: mn, _ :: _, [] => fun _ _ h3 _ => by simp [lexicographical_compare] at h3
  | a :: c, m :: mn, n :: mx, b :: x => fun h1 h2 h3 h4 => by
    obtain ⟨e1, p1⟩ := List.cons_prefix_cons.1 h1
    obtain ⟨e2, p2⟩ := List.cons_prefix_cons.1 h2
    subst e1; subst e2
    rw [lex_cons_cons_false] at h3 h4
    have hab := h.tri a b h4.1 h3.1
    subst hab
    rw [List.prefix_cons_inj]
    exact prefix_of_between h c mn mx x p1 p2 (h3.2 h4.1) (h4.2 h3.1)

/-- Cutting the smallest element of a non-empty range where it leaves the largest gives the
longest common prefix of the whole range. -/
theorem minmax_mismatch_spec [DecidableEq α] (h : StrictTotal lt) (x : List α)
    (xs : List (List α)) :
    ∃ k, mismatch (minmax_element (lexicographical_compare lt) x xs).1
        (minmax_element (lexicographical_compare lt) x xs).2 = some k ∧
      k ≤ (minmax_element (lexicographical_compare lt) x xs).2.length ∧
      (∀ y ∈ x :: xs, (minmax_element (lexicographical_compare lt) x xs).1.take k <+: y) ∧
      ∀ q, (∀ y ∈ x :: xs, q <+: y) →
        q <+: (minmax_element (lexicographical_compare lt) x xs).1.take k := by
  obtain ⟨hm1, hm2, hlo, hhi⟩ := minmax_element_spec (lex_strictTotal h) x xs
  generalize (minmax_element (lexicographical_compare lt) x xs).1 = mn at *
  generalize (minmax_element (lexicographical_compare lt) x xs).2 = mx at *
  obtain ⟨k, hk, hlen, hp1, hp2, hmax⟩ := mismatch_spec h mn mx (hhi mn hm1)
  refine ⟨k, hk, hlen, ?_, ?_⟩
  · intro y hy
    exact prefix_of_between h _ mn mx y hp1 hp2 (hlo y hy) (hhi y hy)
  · intro q hq
    exact hmax q (hq mn hm1) (hq mx hm2)

end Lex

theorem charLt_strictTotal : StrictTotal charLt where
  irrefl := fun a => by simp [charLt]
  trans := fun a b c hab hbc => by
    simp only [charLt, decide_eq_true_eq] at *
    exact lt_trans hab hbc
  tri := fun a b hab hba => by
    simp only [charLt, decide_eq_false_iff_not, not_lt] at *
    exact le_antisymm hba hab

theorem strLt_strictTotal : StrictTotal strLt := lex_strictTotal charLt_strictTotal

/-! ## The components of the code and the components of the specification -/

theorem sep_decomp (d : Char) (p : Str) :
    d ∉ p ∨ ∃ t rest, d ∉ t ∧ p = t ++ d :: rest := by
  induction p with
  | nil => exact Or.inl (by simp)
  | cons x xs ih =>
    by_cases hx : x = d
    · exact Or.inr ⟨[], xs, by simp, by simp [hx]⟩
    · rcases ih with h | ⟨t, rest, ht, heq⟩
      · exact Or.inl (by simp [h, Ne.symm hx])
      · exact Or.inr ⟨x :: t, rest, by simp [ht, Ne.symm hx], by simp [heq]⟩

theorem components_noSep (t : Str) (ht : SEP ∉ t) : components t = removeEmptyAndDot [t] := by
  by_cases hne : t = []
  · subst hne; simp [components_nil, removeEmptyAndDot]
  · simp [components, splitString_single SEP t ht hne]

theorem removeEmptyAndDot_eq (l : List Str) :
    removeEmptyAndDot l = l.filter (fun c => decide (c ≠ [] ∧ c ≠ dot)) := by
  unfold removeEmptyAndDot
  congr 1
  funext c
  by_cases h1 : c = []
  · simp [h1]
  · by_cases h2 : c = dot
    · simp [h2]
    · simp [h1, h2]

/-- The erase after `splitString` leaves the pieces between separators that are neither empty
nor `"."`: the piece that `std::getline` does not report, after a final separator, is empty. -/
theorem specComponents_eq (p : Str) : specComponents p = components p := by
  suffices hs : ∀ (n : Nat) (p : Str), p.length = n → specComponents p = components p from
    hs _ p rfl
  intro n
  induction n using Nat.strong_induction_on with
  | _ n ih =>
    intro p hn
    rcases sep_decomp SEP p with hno | ⟨t, rest, ht, heq⟩
    · have hp : pieces p = [p] := by
        unfold pieces List.splitOn
        apply List.splitOnP_eq_single
        intro x hx hxs
        simp only [beq_iff_eq] at hxs
        exact hno (hxs ▸ hx)
      rw [components_noSep p hno, removeEmptyAndDot_eq, specComponents, hp]
    · subst heq
      have hp : pieces (t ++ SEP :: rest) = t :: pieces rest := by
        unfold pieces List.splitOn
        apply List.splitOnP_first
        · intro x hx hxs
          simp only [beq_iff_eq] at hxs
          exact ht (hxs ▸ hx)
        · simp
      have hrest := ih rest.length (by rw [← hn]; simp; omega) rest rfl
      rw [components_noSep_sep t rest ht, ← hrest, removeEmptyAndDot_eq, specComponents, hp,
        specComponents]
      rw [← List.filter_append]; rfl

/-! ## commonPrefix and commonPath -/

theorem sameKind_cons (x : Str) (xs : List Str) (h : sameKind (x :: xs) = true) :
    ∀ y ∈ xs, isAbs y = isAbs x := by
  induction xs generalizing x with
  | nil => intro y hy; simp at hy
  | cons a rest ih =>
    simp only [sameKind, Bool.and_eq_true, beq_iff_eq] at h
    intro y hy
    rcases List.mem_cons.1 hy with hy | hy
    · rw [hy]; exact h.1
    · rw [ih a h.2 y hy]; exact h.1

theorem sameKind_of_all (b : Bool) (l : List Str) (h : ∀ p ∈ l, isAbs p = b) :
    sameKind l = true := by
  induction l with
  | nil => rfl
  | cons x xs ih =>
    cases xs with
    | nil => rfl
    | cons a rest =>
      simp only [sameKind, Bool.and_eq_true, beq_iff_eq]
      exact ⟨by rw [h a (by simp), h x (by simp)], ih (fun p hp => h p (by simp [hp]))⟩

/-- The value of `commonPath` on a non-empty list of paths of one kind. -/
theorem commonPath_eq (p0 : Str) (ps : List Str) (hk : sameKind (p0 :: ps) = true) :
    commonPath (p0 :: ps) =
      (mismatch (minmax_element vecLt (components p0) (ps.map components)).1
          (minmax_element vecLt (components p0) (ps.map components)).2).map
        (fun diff => (if isAbs p0 then [SEP] else []) ++ joinString SEP
          ((minmax_element vecLt (components p0) (ps.map components)).1.take diff)) := by
  simp [commonPath, hk]

/-! ## rfind, the head and the tail of split -/

theorem rfind_none (p : Str) (c : Char) (h : c ∉ p) : rfind p c = none := by
  induction p with
  | nil => rfl
  | cons x xs ih =>
    have hx : x ≠ c := fun e => h (by simp [e])
    have hxs : c ∉ xs := fun e => h (by simp [e])
    simp [rfind, ih hxs, hx]

theorem rfind_last (a b : Str) (c : Char) (h : c ∉ b) :
    rfind (a ++ c :: b) c = some a.length := by
  induction a with
  | nil => simp [rfind, rfind_none b c h]
  | cons x xs ih => simp [rfind, ih]

theorem rfindSepPlusOne_none (p : Str) (h : SEP ∉ p) : rfindSepPlusOne p = 0 := by
  simp only [rfindSepPlusOne, rfind_none p SEP h, npos]
  norm_num

theorem rfindSepPlusOne_last (a b : Str) (h : SEP ∉ b) :
    rfindSepPlusOne (a ++ SEP :: b) = a.length + 1 := by
  simp only [rfindSepPlusOne, rfind_last a b SEP h]

/-- A path with a separator has a last one. -/
theorem last_sep_decomp (p : Str) (h : SEP ∈ p) : ∃ a b, p = a ++ SEP :: b ∧ SEP ∉ b := by
  induction p with
  | nil => simp at h
  | cons x xs ih =>
    by_cases hxs : SEP ∈ xs
    · obtain ⟨a, b, hab, hb⟩ := ih hxs
      exact ⟨x :: a, b, by simp [hab], hb⟩
    · have hx : x = SEP := by
        rcases List.mem_cons.1 h with e | e
        · exact e.symm
        · exact absurd e hxs
      exact ⟨[], xs, by simp [hx], hxs⟩

/-- With as many iterations as `head` has characters the loop removes the whole run of trailing
separators. -/
theorem popSepLoop_eq : ∀ (n : Nat) (head : Str), head.length ≤ n →
    popSepLoop n head = head.rdropWhile (fun c => c == SEP) := by
  intro n
  induction n with
  | zero =>
    intro head h
    have : head = [] := List.length_eq_zero.1 (Nat.le_zero.1 h)
    subst this; simp [popSepLoop]
  | succ n ih =>
    intro head h
    rcases eq_nil_or_snoc head with hn | ⟨L, t, hL⟩
    · subst hn; simp [popSepLoop]
    · subst hL
      have hlen : L.length ≤ n := by simp at h; omega
      by_cases ht : t = SEP
      · subst ht
        simp only [popSepLoop, List.getLast?_concat, beq_self_eq_true, if_true,
          List.dropLast_concat]
        rw [ih L hlen, List.rdropWhile_concat_pos]
        simp
      · simp only [popSepLoop, List.getLast?_concat]
        rw [if_neg (by simpa using ht), List.rdropWhile_concat_neg]
        simpa using ht

/-- The guarded loop strips the trailing separators of a head that is not made of separators
only, and leaves any other head alone. -/
theorem stripHead_eq (head : Str) :
    (if (!head.isEmpty && head != List.replicate head.length SEP) = true then
        popSepLoop head.length head
      else head) =
      if ∀ c ∈ head, c = SEP then head else head.rdropWhile (fun c => c == SEP) := by
  by_cases hall : ∀ c ∈ head, c = SEP
  · have : head = List.replicate head.length SEP := List.eq_replicate_length.2 hall
    rw [if_pos hall, if_neg]
    simp [← this]
  · have hne : head ≠ List.replicate head.length SEP :=
      fun e => hall (List.eq_replicate_length.1 e)
    have hnil : head ≠ [] := fun e => hall (by simp [e])
    rw [if_neg hall, if_pos (by simp [hne, hnil]), popSepLoop_eq _ _ (le_refl _)]

/-! ## The claims about normPath -/

/-- C1: `normPath` is idempotent: for every string `p`,
`normPath (normPath p) = normPath p`. -/
theorem normPath_idempotent (p : Str) : normPath (normPath p) = normPath p := by
  by_cases hp : p = []
  · subst hp; decide
  · obtain ⟨hN, hinv⟩ := newComps_spec p
    rw [normPath_eq p hp]
    split
    · exact normPath_dot
    · rename_i h
      apply normPath_canonical _ _ (initialSlashes_le p) hN hinv
      by_contra hcon
      push_neg at hcon
      exact h hcon

/-- C8: for component names `A`, `B` and `foo` (not empty, without separator, neither `"."` nor
`".."`), `normPath` sends each of `A//B`, `A/B/`, `A/./B` and `A/foo/../B` to `A/B`. -/
theorem normPath_collapses (A B foo : Str) (hA : IsName A) (hB : IsName B) (hfoo : IsName foo) :
    normPath (A ++ SEP :: SEP :: B) = A ++ SEP :: B ∧
    normPath (A ++ SEP :: (B ++ [SEP])) = A ++ SEP :: B ∧
    normPath (A ++ SEP :: (dot ++ SEP :: B)) = A ++ SEP :: B ∧
    normPath (A ++ SEP :: (foo ++ SEP :: (dotdot ++ SEP :: B))) = A ++ SEP :: B := by
  have hAd : A ≠ dotdot := hA.2.2.2
  have hBd : B ≠ dotdot := hB.2.2.2
  have hfd : foo ≠ dotdot := hfoo.2.2.2
  have hdd : IsComp dotdot := by
    refine ⟨by decide, by decide, by decide⟩
  have hne : ∀ rest : Str, A ++ rest ≠ [] := fun rest h => hA.1 (List.append_eq_nil.1 h).1
  have hi : ∀ rest : Str, initialSlashes (A ++ rest) = 0 :=
    fun rest => initialSlashes_zero _ (hA.head_ne rest)
  have hAB : [A, B].foldl (normStep 0) [] = [A, B] := by
    simp [normStep, hAd, hBd]
  refine ⟨?_, ?_, ?_, ?_⟩
  · apply normPath_two _ A B (hne _) (hi _)
    rw [components_comp_sep _ _ hA.isComp, components_sep, components_comp _ hB.isComp, hAB]
  · apply normPath_two _ A B (hne _) (hi _)
    rw [components_comp_sep _ _ hA.isComp, components_comp_sep _ _ hB.isComp, components_nil, hAB]
  · apply normPath_two _ A B (hne _) (hi _)
    rw [components_comp_sep _ _ hA.isComp, components_noSep_sep dot B (by decide),
      components_comp _ hB.isComp]
    simpa [removeEmptyAndDot] using hAB
  · apply normPath_two _ A B (hne _) (hi _)
    rw [components_comp_sep _ _ hA.isComp, components_comp_sep _ _ hfoo.isComp,
      components_comp_sep _ _ hdd, components_comp _ hB.isComp]
    simp [normStep, hAd, hBd, hfd]

theorem normPath_collapses_witness :
    normPath ("A//B".toList) = "A/B".toList ∧ normPath ("A/B/".toList) = "A/B".toList ∧
    normPath ("A/./B".toList) = "A/B".toList ∧ normPath ("A/foo/../B".toList) = "A/B".toList :=
  normPath_collapses "A".toList "B".toList "foo".toList (by decide) (by decide) (by decide)

/-- C9: the leading-separator rule of `normPath`: the result begins with exactly two separators
when the path begins with exactly two, with exactly one when the path begins with one or with
three or more, and with none when the path does not begin with a separator. It holds for every
path, the non-empty ones in particular. -/
theorem normPath_leading (p : Str) :
    (leadingSeps p = 2 → leadingSeps (normPath p) = 2) ∧
    (leadingSeps p = 1 ∨ 3 ≤ leadingSeps p → leadingSeps (normPath p) = 1) ∧
    (leadingSeps p = 0 → leadingSeps (normPath p) = 0) := by
  rw [leadingSeps_normPath, initialSlashes_eq]
  refine ⟨fun h => by simp [h], fun h => ?_, fun h => by simp [h]⟩
  rcases h with h | h
  · simp [h]
  · have h0 : leadingSeps p ≠ 0 := by omega
    have h2 : leadingSeps p ≠ 2 := by omega
    simp [h0, h2]

theorem normPath_leading_witness :
    leadingSeps "//usr//lib".toList = 2 ∧ leadingSeps (normPath "//usr//lib".toList) = 2 ∧
    leadingSeps (normPath "///usr".toList) = 1 ∧ leadingSeps (normPath "usr/".toList) = 0 :=
  ⟨by decide, (normPath_leading "//usr//lib".toList).1 (by decide),
    (normPath_leading "///usr".toList).2.1 (Or.inr (by decide)),
    (normPath_leading "usr/".toList).2.2 (by decide)⟩

/-- C10: `normPath` never returns the empty string, and `normPath "" = "."`. -/
theorem normPath_ne_nil (p : Str) : normPath p ≠ [] ∧ normPath [] = dot := by
  refine ⟨?_, by decide⟩
  by_cases hp : p = []
  · subst hp; decide
  · obtain ⟨hN, _⟩ := newComps_spec p
    rw [normPath_eq p hp]
    split
    · decide
    · rename_i h
      intro hnil
      obtain ⟨h1, h2⟩ := List.append_eq_nil.1 hnil
      apply h
      refine ⟨?_, (joinString_eq_nil _ hN).1 h2⟩
      cases hk : initialSlashes p with
      | zero => rfl
      | succ k => rw [hk] at h1; simp [List.replicate_succ] at h1

/-! ## The claims about commonPrefix and commonPath -/

/-- C2: for a non-empty list of paths that are all absolute or all relative, `commonPath`
returns the longest common component prefix: with the component list of a path being its
pieces between separators without the empty and the `"."` pieces (a `".."` stays), there is a
list `L` of components that is a prefix of every path's component list and of which every
common prefix of the component lists is a prefix, and the result is `L` joined with `/`,
behind one `/` when the paths are absolute and behind nothing when they are relative; the
joined `L` does not itself begin with `/`. -/
theorem commonPath_longest (paths : List Str) (hne : paths ≠ [])
    (hkind : (∀ p ∈ paths, isAbs p = true) ∨ (∀ p ∈ paths, isAbs p = false)) :
    ∃ L : List Str,
      (∀ p ∈ paths, L <+: specComponents p) ∧
      (∀ L' : List Str, (∀ p ∈ paths, L' <+: specComponents p) → L' <+: L) ∧
      (joinString SEP L).head? ≠ some SEP ∧
      ((∀ p ∈ paths, isAbs p = true) → commonPath paths = some (SEP :: joinString SEP L)) ∧
      ((∀ p ∈ paths, isAbs p = false) → commonPath paths = some (joinString SEP L)) := by
  obtain ⟨p0, ps, rfl⟩ := List.exists_cons_of_ne_nil hne
  have hk : sameKind (p0 :: ps) = true := by
    rcases hkind with h | h
    · exact sameKind_of_all true _ h
    · exact sameKind_of_all false _ h
  obtain ⟨k, hk1, _, hpre, hmax⟩ :=
    minmax_mismatch_spec strLt_strictTotal (components p0) (ps.map components)
  have hmem : (minmax_element vecLt (components p0) (ps.map components)).1
      ∈ components p0 :: ps.map components :=
    (minmax_element_spec (lex_strictTotal strLt_strictTotal) _ _).1
  have hval := commonPath_eq p0 ps hk
  unfold vecLt at hval hmem
  generalize (minmax_element (lexicographical_compare strLt) (components p0)
    (ps.map components)).1 = mn at *
  generalize (minmax_element (lexicographical_compare strLt) (components p0)
    (ps.map components)).2 = mx at *
  have hin : ∀ p ∈ p0 :: ps, components p ∈ components p0 :: ps.map components := by
    intro p hp
    rcases List.mem_cons.1 hp with h | h
    · rw [h]; simp
    · exact List.mem_cons_of_mem _ (List.mem_map_of_mem _ h)
  have hcomp : ∀ c ∈ mn.take k, IsComp c := by
    intro c hc
    have hc' := List.mem_of_mem_take hc
    rcases List.mem_cons.1 hmem with h | h
    · rw [h] at hc'; exact components_isComp p0 c hc'
    · obtain ⟨q, _, hq⟩ := List.mem_map.1 h
      rw [← hq] at hc'; exact components_isComp q c hc'
  rw [hk1] at hval
  refine ⟨mn.take k, ?_, ?_, joinString_head _ hcomp, ?_, ?_⟩
  · intro p hp
    rw [specComponents_eq]
    exact hpre _ (hin p hp)
  · intro L' hL'
    apply hmax
    intro y hy
    rcases List.mem_cons.1 hy with h | h
    · rw [h, ← specComponents_eq]; exact hL' p0 (by simp)
    · obtain ⟨q, hq1, hq2⟩ := List.mem_map.1 h
      rw [← hq2, ← specComponents_eq]; exact hL' q (by simp [hq1])
  · intro habs
    rw [hval]; simp [habs p0 (by simp)]
  · intro hrel
    rw [hval]; simp [hrel p0 (by simp)]

theorem commonPath_longest_witness :
    ∃ L : List Str, L <+: specComponents "/usr/lib/".toList ∧
      (["usr".toList] <+: L) ∧
      commonPath ["/usr/lib/".toList, "/usr/lib64/".toList] = some (SEP :: joinString SEP L) := by
  obtain ⟨L, h1, h2, _, h4, _⟩ :=
    commonPath_longest ["/usr/lib/".toList, "/usr/lib64/".toList] (by simp)
      (Or.inl (by decide))
  exact ⟨L, h1 _ (by simp), h2 _ (by decide), h4 (by decide)⟩

/-- C3: `commonPrefix` returns the longest character-by-character common prefix: the result is
a prefix of every element of the list, and on a non-empty list every string that is a prefix of
every element is a prefix of the result; for the empty list (of which every string is a common
prefix) the result is the empty string. The call always returns: `std::mismatch` stays inside
its second range. -/
theorem commonPrefix_longest (paths : List Str) :
    ∃ r : Str, commonPrefix paths = some r ∧
      (∀ p ∈ paths, r <+: p) ∧
      (paths ≠ [] → ∀ q : Str, (∀ p ∈ paths, q <+: p) → q <+: r) ∧
      (paths = [] → r = []) := by
  cases paths with
  | nil => exact ⟨[], rfl, by simp, fun h => absurd rfl h, fun _ => rfl⟩
  | cons p ps =>
    obtain ⟨k, hk1, _, hpre, hmax⟩ := minmax_mismatch_spec charLt_strictTotal p ps
    refine ⟨(minmax_element strLt p ps).1.take k, ?_, hpre, fun _ => hmax, fun h => by simp at h⟩
    simp only [commonPrefix]
    unfold strLt
    rw [hk1]; rfl

theorem commonPrefix_longest_witness :
    ∃ r : Str, commonPrefix ["aaa".toList, "aabbb".toList, "aaaaab".toList] = some r ∧
      r <+: "aabbb".toList ∧ "aa".toList <+: r := by
  obtain ⟨r, h1, h2, h3, _⟩ :=
    commonPrefix_longest ["aaa".toList, "aabbb".toList, "aaaaab".toList]
  exact ⟨r, h1, h2 _ (by simp), h3 (by simp) _ (by decide)⟩

/-- C4: `commonPath` answers the empty string, and does answer, on the empty list and on every
list that holds at least one absolute and at least one relative path, wherever they stand. -/
theorem commonPath_no_common (paths : List Str)
    (h : paths = [] ∨ ((∃ a ∈ paths, isAbs a = true) ∧ (∃ r ∈ paths, isAbs r = false))) :
    commonPath paths = some [] := by
  rcases h with h | ⟨⟨a, ha, haa⟩, ⟨r, hr, hrr⟩⟩
  · subst h; rfl
  · cases paths with
    | nil => simp at ha
    | cons p0 ps =>
      have hk : sameKind (p0 :: ps) = false := by
        by_contra hk
        simp only [Bool.not_eq_false] at hk
        have hall := sameKind_cons p0 ps hk
        have e1 : isAbs a = isAbs p0 := by
          rcases List.mem_cons.1 ha with h | h
          · rw [h]
          · exact hall a h
        have e2 : isAbs r = isAbs p0 := by
          rcases List.mem_cons.1 hr with h | h
          · rw [h]
          · exact hall r h
        rw [haa] at e1; rw [hrr, ← e1] at e2; cases e2
      simp [commonPath, hk]

theorem commonPath_no_common_witness :
    commonPath ["and/jam".toList, "/and/spam".toList, "alot".toList] = some [] ∧
    commonPath [] = some [] :=
  ⟨commonPath_no_common _
      (Or.inr ⟨⟨"/and/spam".toList, by simp, by decide⟩, ⟨"alot".toList, by simp, by decide⟩⟩),
    commonPath_no_common [] (Or.inl rfl)⟩

/-! ## The claims about join, split, baseName and dirName -/

theorem joinInto_eq_foldl (a b : Str) (args : List Str) :
    joinInto a b args = (b :: args).foldl joinStep a := by
  induction args generalizing a b with
  | nil => rfl
  | cons c rest ih => simp only [joinInto, ih, List.foldl_cons]

theorem join_eq_foldl (a b : Str) (args : List Str) :
    join a b args = (b :: args).foldl joinStep a := by
  have : joinStep [] a = a := by
    unfold joinStep
    split <;> simp
  rw [join, joinInto_eq_foldl, List.foldl_cons, this]

/-- C5: an absolute part resets `join`: when the parts after the first one are
`pre ++ pk :: post` with `pk` absolute, the result is `pk` itself when nothing follows it, and
the join of `pk` and the parts after it otherwise; the first part and `pre` have no effect. -/
theorem join_absolute_resets (a b : Str) (args pre post : List Str) (pk : Str)
    (hparts : b :: args = pre ++ pk :: post) (habs : isAbs pk = true) :
    join a b args = joinFrom pk post := by
  have hstep : ∀ acc : Str, joinStep acc pk = pk := fun acc => by simp [joinStep, habs]
  rw [join_eq_foldl, hparts, List.foldl_append, List.foldl_cons, hstep]
  cases post with
  | nil => rfl
  | cons q rest => simp only [joinFrom, join_eq_foldl]

theorem join_absolute_resets_witness :
    join "/foo".toList "bar".toList ["/bar".toList, "baz".toList]
        = join "/bar".toList "baz".toList [] ∧
      join "/foo".toList "bar".toList ["/bar".toList] = "/bar".toList :=
  ⟨join_absolute_resets "/foo".toList "bar".toList ["/bar".toList, "baz".toList]
      ["bar".toList] ["baz".toList] "/bar".toList rfl (by decide),
    join_absolute_resets "/foo".toList "bar".toList ["/bar".toList]
      ["bar".toList] [] "/bar".toList rfl (by decide)⟩

/-- C6: `split` against its reference definition. A path without separator splits into the
empty head and itself. A path with a separator can be written `a ++ SEP :: b` with no separator
in `b`, so that this separator is the last one, and however it is written so: the tail is `b`,
and the head is `a ++ [SEP]` whole when it is made of separators only, and `a ++ [SEP]` without
its trailing separators otherwise. -/
theorem split_reference (p : Str) :
    (SEP ∉ p → split p = ([], p)) ∧
    (SEP ∈ p → ∃ a b : Str, p = a ++ SEP :: b ∧ SEP ∉ b) ∧
    ∀ a b : Str, p = a ++ SEP :: b → SEP ∉ b →
      split p = (if ∀ c ∈ a ++ [SEP], c = SEP then a ++ [SEP]
                 else (a ++ [SEP]).rdropWhile (fun c => c == SEP), b) := by
  refine ⟨?_, last_sep_decomp p, ?_⟩
  · intro h
    simp only [split, rfindSepPlusOne_none p h, List.take_zero, List.drop_zero]
    rw [stripHead_eq]; simp
  · intro a b hp hb
    subst hp
    have ht : (a ++ SEP :: b).take (a.length + 1) = a ++ [SEP] := by
      rw [show a ++ SEP :: b = (a ++ [SEP]) ++ b by simp]
      exact List.take_left' (by simp)
    have hd : (a ++ SEP :: b).drop (a.length + 1) = b := by
      rw [show a ++ SEP :: b = (a ++ [SEP]) ++ b by simp]
      exact List.drop_left' (by simp)
    simp only [split, rfindSepPlusOne_last a b hb, ht, hd]
    rw [stripHead_eq]

theorem split_reference_witness :
    split "foo".toList = ([], "foo".toList) ∧
    split "//foo//bar".toList = ("//foo".toList, "bar".toList) ∧
    split "////foo".toList = ("////".toList, "foo".toList) :=
  ⟨(split_reference "foo".toList).1 (by decide),
    by simpa [List.rdropWhile, SEP] using
      (split_reference "//foo//bar".toList).2.2 "//foo/".toList "bar".toList rfl (by decide),
    by simpa [SEP] using
      (split_reference "////foo".toList).2.2 "///".toList "foo".toList rfl (by decide)⟩

/-- C7: `dirName` and `baseName`, written apart from `split`, agree with it on every path:
`dirName p` is the first and `baseName p` the second element of `split p`. -/
theorem dirName_baseName_split (p : Str) :
    dirName p = (split p).1 ∧ baseName p = (split p).2 := by
  refine ⟨rfl, ?_⟩
  simp only [baseName, split, rfindSepPlusOne]
  cases rfind p SEP with
  | none => simp only [npos]; norm_num
  | some i => rfl

/-! ## The last part of join -/

theorem joinStep_suffix (a b : Str) : b <:+ joinStep a b := by
  unfold joinStep
  split
  · exact List.suffix_refl b
  · exact List.suffix_append _ b

/-- The result of `join` is the last step of the fold, taken on the last part. -/
theorem join_last_step (a b : Str) (args : List Str) :
    ∃ acc : Str, join a b args =
      joinStep acc ((b :: args).getLast (List.cons_ne_nil b args)) := by
  rw [join_eq_foldl]
  have h := List.dropLast_append_getLast (List.cons_ne_nil b args)
  refine ⟨(b :: args).dropLast.foldl joinStep a, ?_⟩
  conv_lhs => rw [← h]
  rw [List.foldl_append]
  rfl

theorem getLast?_of_suffix (l r : Str) (h : l <:+ r) (hne : l ≠ []) :
    r.getLast? = l.getLast? := by
  obtain ⟨t, rfl⟩ := h
  rw [List.getLast?_append]
  obtain ⟨L, x, rfl⟩ := (eq_nil_or_snoc l).resolve_left hne
  simp

/-- With parts that are objects of their own, the last part is a suffix of the result of the
second `join` template. -/
theorem join_last_suffix (a b : Str) (args : List Str) :
    (b :: args).getLast (List.cons_ne_nil b args) <:+ join a b args := by
  obtain ⟨acc, h⟩ := join_last_step a b args
  rw [h]
  exact joinStep_suffix _ _

/-- The result of the first `join` template, on a part that is not the accumulator, is the
last step of the fold, taken on the last part. -/
theorem joinInto_last_step (a b : Str) (args : List Str) :
    ∃ acc : Str, joinInto a b args =
      joinStep acc ((b :: args).getLast (List.cons_ne_nil b args)) := by
  rw [joinInto_eq_foldl]
  have h := List.dropLast_append_getLast (List.cons_ne_nil b args)
  refine ⟨(b :: args).dropLast.foldl joinStep a, ?_⟩
  conv_lhs => rw [← h]
  rw [List.foldl_append]
  rfl

/-- With parts that are objects of their own, the last part is a suffix of the result of the
first `join` template as well. -/
theorem joinInto_last_suffix (a b : Str) (args : List Str) :
    (b :: args).getLast (List.cons_ne_nil b args) <:+ joinInto a b args := by
  obtain ⟨acc, h⟩ := joinInto_last_step a b args
  rw [h]
  exact joinStep_suffix _ _

theorem joinStep_ends_in_sep (acc last : Str) (h : (joinStep acc last).getLast? = some SEP) :
    last = [] ∨ last.getLast? = some SEP := by
  by_cases hne : last = []
  · exact Or.inl hne
  · right
    rw [getLast?_of_suffix _ _ (joinStep_suffix _ _) hne] at h
    exact h

/-- C11 at its failing input: `join(s, s)` on one non-const string `s = "foo"` is the first
`join` template with the part being the accumulator itself. The separator pushed on the
accumulator lands in the part too, and the result is `"foo/foo/"`, of which the part `"foo"`
is not a suffix; the same two parts through the second template give `"foo/foo"`. -/
theorem join_aliased_last_part :
    joinIntoAliased "foo".toList [] = "foo/foo/".toList ∧
    ¬ ("foo".toList <:+ joinIntoAliased "foo".toList []) ∧
    join "foo".toList "foo".toList [] = "foo/foo".toList ∧
    "foo".toList <:+ join "foo".toList "foo".toList [] := by
  decide

/-- C12, as the code has it: for two or more parts, the result of `join` ends in a separator
only if the last part is empty or itself ends in a separator. This holds of the second `join`
template, of the first template on an accumulator `a` and parts `b, args...` that are objects
of their own, and of the first template called as `join(a, a, b, args...)` with at least one
part after the one that is the accumulator itself. The call `join(a, a)` is left out. -/
theorem join_ends_in_sep (a b : Str) (args : List Str) :
    ((join a b args).getLast? = some SEP →
      (b :: args).getLast (List.cons_ne_nil b args) = [] ∨
      ((b :: args).getLast (List.cons_ne_nil b args)).getLast? = some SEP) ∧
    ((joinInto a b args).getLast? = some SEP →
      (b :: args).getLast (List.cons_ne_nil b args) = [] ∨
      ((b :: args).getLast (List.cons_ne_nil b args)).getLast? = some SEP) ∧
    ((joinIntoAliased a (b :: args)).getLast? = some SEP →
      (b :: args).getLast (List.cons_ne_nil b args) = [] ∨
      ((b :: args).getLast (List.cons_ne_nil b args)).getLast? = some SEP) := by
  refine ⟨fun h => ?_, fun h => ?_, fun h => ?_⟩
  · obtain ⟨acc, hj⟩ := join_last_step a b args
    rw [hj] at h
    exact joinStep_ends_in_sep _ _ h
  · obtain ⟨acc, hj⟩ := joinInto_last_step a b args
    rw [hj] at h
    exact joinStep_ends_in_sep _ _ h
  · obtain ⟨acc, hj⟩ := joinInto_last_step (joinStepAliased a) b args
    rw [joinIntoAliased, hj] at h
    exact joinStep_ends_in_sep _ _ h

theorem join_ends_in_sep_witness :
    (join "/foo/".toList "bar/".toList ["baz/".toList]).getLast? = some SEP ∧
    ("baz/".toList = [] ∨ ("baz/".toList).getLast? = some SEP) ∧
    (joinIntoAliased "foo".toList ["bar/".toList]).getLast? = some SEP ∧
    ("bar/".toList = [] ∨ ("bar/".toList).getLast? = some SEP) :=
  ⟨by decide,
    (join_ends_in_sep "/foo/".toList "bar/".toList ["baz/".toList]).1 (by decide),
    by decide,
    (join_ends_in_sep "foo".toList "bar/".toList []).2.2 (by decide)⟩

/-- C12, as stated, fails: `join("/foo/", "bar/", "baz/")`, a call of the second template, is
`"/foo/bar/baz/"`, which ends in a separator, and its last part `"baz/"` is not empty. -/
theorem join_ends_in_sep_counterexample :
    ¬ ((join "/foo/".toList "bar/".toList ["baz/".toList]).getLast? = some SEP →
        ["bar/".toList, "baz/".toList].getLast (List.cons_ne_nil _ _) = []) := by
  decide

/-! ## absPath -/

/-- Normalising twice is normalising once (the lemma behind `absPath`). -/
theorem normPath_fixed (p : Str) : normPath (normPath p) = normPath p := by
  by_cases hp : p = []
  · subst hp; decide
  · obtain ⟨hN, hinv⟩ := newComps_spec p
    rw [normPath_eq p hp]
    split
    · exact normPath_dot
    · rename_i h
      refine normPath_canonical _ _ (initialSlashes_le p) hN hinv ?_
      by_contra hcon
      push_neg at hcon
      exact h hcon

theorem isAbs_iff_leadingSeps (q : Str) : isAbs q = true ↔ leadingSeps q ≠ 0 := by
  cases q with
  | nil => simp [isAbs, leadingSeps]
  | cons a as =>
    by_cases ha : a = SEP
    · simp [isAbs, leadingSeps, List.takeWhile_cons, ha]
    · simp [isAbs, leadingSeps, List.takeWhile_cons, ha]

theorem isAbs_normPath (q : Str) (h : isAbs q = true) : isAbs (normPath q) = true := by
  rw [isAbs_iff_leadingSeps] at h ⊢
  rw [leadingSeps_normPath, initialSlashes_eq]
  split_ifs <;> omega

theorem isAbs_joinStep (a b : Str) (ha : isAbs a = true) : isAbs (joinStep a b) = true := by
  unfold joinStep
  split
  · assumption
  · cases a with
    | nil => simp [isAbs] at ha
    | cons x xs =>
      simp only [isAbs, List.isEmpty_cons, Bool.not_false, List.head?_cons, Bool.true_and,
        beq_iff_eq, Option.some.injEq] at ha
      split <;> simp [isAbs, ha]

/-- C13: with an absolute working directory, `absPath p` is absolute and already normalised;
and when `p` itself is absolute the result is `normPath p`, whatever the working directory. -/
theorem absPath_spec (cwd p : Str) (hcwd : isAbs cwd = true) :
    isAbs (absPath cwd p) = true ∧
    normPath (absPath cwd p) = absPath cwd p ∧
    (isAbs p = true → ∀ cwd' : Str, absPath cwd' p = normPath p) := by
  refine ⟨?_, ?_, ?_⟩
  · unfold absPath
    split
    · exact isAbs_normPath _ (isAbs_joinStep cwd p hcwd)
    · rename_i h
      exact isAbs_normPath _ (by simpa using h)
  · unfold absPath
    split <;> exact normPath_fixed _
  · intro hp cwd'
    simp [absPath, hp]

theorem absPath_spec_witness :
    isAbs (absPath "/home/u".toList "a/../b".toList) = true ∧
    normPath (absPath "/home/u".toList "a/../b".toList) = absPath "/home/u".toList "a/../b".toList ∧
    absPath "/home/u".toList "/etc//x".toList = normPath "/etc//x".toList :=
  ⟨(absPath_spec "/home/u".toList "a/../b".toList (by decide)).1,
    (absPath_spec "/home/u".toList "a/../b".toList (by decide)).2.1,
    (absPath_spec "/home/u".toList "/etc//x".toList (by decide)).2.2 (by decide) _⟩

/-! ## expandUser, isLink, isMount -/

/-- C14: `expandUser` leaves a path that does not start with `~` untouched, whatever the two
home-directory lookups return, and even when they would not return. -/
theorem expandUser_no_tilde (homeDirectory : Option Str) (homeDirectoryOf : Str → Option Str)
    (path : Str) (h : path.head? ≠ some '~') :
    expandUser homeDirectory homeDirectoryOf path = some path := by
  have hs : startsWith path ['~'] = false := by
    cases path with
    | nil => simp [startsWith]
    | cons a as => simp at h; simp [startsWith, h]
  simp [expandUser, hs]

theorem expandUser_no_tilde_witness :
    expandUser none (fun _ => some "/root".toList) "relative/path".toList
      = some "relative/path".toList :=
  expandUser_no_tilde none _ "relative/path".toList (by decide)

/-- C16 at its failing input: `/link` is a symbolic link to a regular file, the call that does
not follow links reports a symbolic link, and `isLink` answers `false`, because it asks the
call that follows links. -/
theorem isLink_follows_link :
    (exampleLstat "/link".toList).map S_ISLNK = some true ∧
    isLink exampleStat exampleLstat "/link".toList = false := by
  decide

/-- C15 at its failing inputs: the ordinary directory `/usr` has the device of its parent `/`
and another inode, and `isMount` answers `true`; the root `/` is its own parent, same device
and same inode, and `isMount` answers `false`. -/
theorem isMount_inode_test :
    isMount exampleStat exampleRealPath "/usr".toList = true ∧
    isMount exampleStat exampleRealPath "/".toList = false := by
  decide

/-! ## normPath and the algorithm of the specification -/

theorem specLeading_eq (p : Str) : specLeading p = initialSlashes p := by
  rw [initialSlashes_eq]
  unfold specLeading
  split_ifs <;> omega

theorem drop_leadingSeps (p : Str) : components (p.drop (leadingSeps p)) = components p := by
  obtain ⟨r, _, heq⟩ := exists_leading p
  generalize leadingSeps p = k at heq
  subst heq
  rw [components_replicate_sep, List.drop_left' (by simp)]

theorem joinString_eq_intercalate (l : List Str) : joinString SEP l = [SEP].intercalate l := by
  induction l with
  | nil => rfl
  | cons x xs ih =>
    cases xs with
    | nil => simp [joinString, List.intercalate]
    | cons y ys =>
      simp only [joinString, ih]
      simp [List.intercalate]

/-- One iteration of the loop of `normPath` is the amended step 4 on the reversed vector, as
long as the vector has the shape that the loop keeps. -/
theorem normStep_eq_specStepAmended (init : Nat) (acc : List Str) (x : Str)
    (hinv : NormInv init acc) :
    normStep init acc x = (specStepAmended (decide (init = 0)) acc.reverse x).reverse := by
  by_cases hx : x = dotdot
  · rcases eq_nil_or_snoc acc with ha | ⟨A, t, ha⟩
    · subst ha
      by_cases hi : init = 0
      · simp [normStep, specStepAmended, hx, hi]
      · simp [normStep, specStepAmended, hx, hi]
    · subst ha
      by_cases ht : t = dotdot
      · have hi : init = 0 := by
          by_contra hi
          exact hinv.1 hi (by simp [ht])
        simp [normStep, specStepAmended, hx, hi, ht]
      · simp [normStep, specStepAmended, hx, ht]
  · simp [normStep, specStepAmended, hx]

theorem normLoop_eq_specLoop (init : Nat) (L : List Str) :
    ∀ acc : List Str, NormInv init acc →
      L.foldl (normStep init) acc =
        (L.foldl (specStepAmended (decide (init = 0))) acc.reverse).reverse := by
  induction L with
  | nil => intro acc _; simp
  | cons x xs ih =>
    intro acc hinv
    simp only [List.foldl_cons]
    rw [ih _ (normStep_inv init acc x hinv), normStep_eq_specStepAmended init acc x hinv]
    simp

/-- C17, as the code has it: `normPath` is the stack algorithm of the specification in which
a `".."` segment pops the top when the stack is not empty and its top is not `".."`, is pushed
when the path is relative and the stack is empty or has `".."` on top, and is dropped in every
other case. -/
theorem normPath_eq_specNormalizeAmended (p : Str) : normPath p = specNormalizeAmended p := by
  by_cases hp : p = []
  · subst hp; decide
  · unfold specNormalizeAmended specNormalizeWith normPath
    simp only [hp, if_false, List.isEmpty_eq_true]
    rw [specLeading_eq, specComponents_eq, drop_leadingSeps,
      normLoop_eq_specLoop _ _ [] ⟨fun _ => by simp, by simp [goodStack]⟩,
      joinString_eq_intercalate]
    by_cases hi : initialSlashes p = 0
    · simp [hi]
    · simp [hi]

/-- C17, as stated, fails: on `"../.."` the second `".."` finds a stack that is not empty and
has `".."` on top; the specification's step drops it, and the code pushes it. -/
theorem normPath_ne_specNormalize :
    normPath "../..".toList = "../..".toList ∧ specNormalize "../..".toList = "..".toList ∧
    normPath "../..".toList ≠ specNormalize "../..".toList := by
  decide

/-! ## std::mismatch on the minimum and the maximum -/

/-- What the index returned by `std::mismatch` is, whenever it returns one. -/
theorem mismatch_first_diff {α : Type} [DecidableEq α] : ∀ (mn mx : List α) (k : Nat),
    mismatch mn mx = some k →
    k ≤ mn.length ∧ k ≤ mx.length ∧ mn.take k = mx.take k ∧
      (k < mn.length → k < mx.length ∧ mn[k]? ≠ mx[k]?)
  | [], mx, k => fun h => by
    simp only [mismatch, Option.some.injEq] at h
    subst h; simp
  | a :: as, [], k => fun h => by simp [mismatch] at h
  | a :: as, b :: bs, k => fun h => by
    by_cases hab : a = b
    · subst hab
      simp only [mismatch, if_true, Option.map_eq_some'] at h
      obtain ⟨k', hk', rfl⟩ := h
      obtain ⟨h1, h2, h3, h4⟩ := mismatch_first_diff as bs k' hk'
      refine ⟨by simpa using h1, by simpa using h2, by simp [h3], ?_⟩
      intro hlt
      have := h4 (by simpa using hlt)
      simpa using this
    · simp only [mismatch, hab, if_false, Option.some.injEq] at h
      subst h
      simp [hab]

theorem minmax_mismatch_inBounds {α : Type} [DecidableEq α] {lt : α → α → Bool}
    (h : StrictTotal lt) (x : List α) (xs : List (List α)) :
    MismatchInBounds (minmax_element (lexicographical_compare lt) x xs).1
      (minmax_element (lexicographical_compare lt) x xs).2 := by
  obtain ⟨k, hk, _, _, _⟩ := minmax_mismatch_spec h x xs
  obtain ⟨h1, h2, h3, h4⟩ := mismatch_first_diff _ _ k hk
  exact ⟨k, hk, h2, h1, h3, h4⟩

/-- C18: the comparison of the lexicographic minimum with the maximum stays in bounds, for
every non-empty list `p :: ps` of strings compared by characters (as in `commonPrefix`) and
every non-empty list `c :: cs` of component lists compared by components (as in
`commonPath`): `std::mismatch` returns the first index where the two differ, or the length of
the minimum, without reading at or past the end of the maximum, and this index is at most the
length of the maximum. Hence `commonPrefix` and `commonPath` return on every list. -/
theorem mismatch_min_max_in_bounds :
    (∀ (p : Str) (ps : List Str),
      MismatchInBounds (minmax_element strLt p ps).1 (minmax_element strLt p ps).2) ∧
    (∀ (c : List Str) (cs : List (List Str)),
      MismatchInBounds (minmax_element vecLt c cs).1 (minmax_element vecLt c cs).2) ∧
    (∀ paths : List Str, (commonPrefix paths).isSome = true) ∧
    (∀ paths : List Str, (commonPath paths).isSome = true) := by
  have hs : ∀ (p : Str) (ps : List Str),
      MismatchInBounds (minmax_element strLt p ps).1 (minmax_element strLt p ps).2 :=
    fun p ps => minmax_mismatch_inBounds charLt_strictTotal p ps
  have hv : ∀ (c : List Str) (cs : List (List Str)),
      MismatchInBounds (minmax_element vecLt c cs).1 (minmax_element vecLt c cs).2 :=
    fun c cs => minmax_mismatch_inBounds strLt_strictTotal c cs
  refine ⟨hs, hv, ?_, ?_⟩
  · intro paths
    cases paths with
    | nil => rfl
    | cons p ps =>
      obtain ⟨k, hk, _⟩ := hs p ps
      simp only [commonPrefix]
      rw [hk]; rfl
  · intro paths
    cases paths with
    | nil => rfl
    | cons p0 ps =>
      by_cases hkind : sameKind (p0 :: ps) = true
      · obtain ⟨k, hk, _⟩ := hv (components p0) (ps.map components)
        rw [commonPath_eq p0 ps hkind, hk]; rfl
      · simp [commonPath, hkind]

/-! ## The shape of normPath's output -/

theorem leadingRun_of_goodStack (l : List Str) (h : goodStack l.reverse) : LeadingRun l := by
  intro A B hl
  subst hl
  simp only [List.reverse_append, List.reverse_cons, List.append_assoc,
    List.singleton_append] at h
  exact fun x hx => (goodStack_of_append _ _ h).1 rfl x (by simpa using hx)

theorem pieces_noSep (t : Str) (ht : SEP ∉ t) : pieces t = [t] := by
  unfold pieces List.splitOn
  apply List.splitOnP_eq_single
  intro x hx hxs
  simp only [beq_iff_eq] at hxs
  exact ht (hxs ▸ hx)

theorem pieces_noSep_sep (t rest : Str) (ht : SEP ∉ t) :
    pieces (t ++ SEP :: rest) = t :: pieces rest := by
  unfold pieces List.splitOn
  apply List.splitOnP_first
  · intro x hx hxs
    simp only [beq_iff_eq] at hxs
    exact ht (hxs ▸ hx)
  · simp

theorem pieces_sep (r : Str) : pieces (SEP :: r) = [] :: pieces r := by
  simpa using pieces_noSep_sep [] r (by simp)

theorem pieces_replicate (k : Nat) (r : Str) :
    pieces (List.replicate k SEP ++ r) = List.replicate k [] ++ pieces r := by
  induction k with
  | zero => simp
  | succ k ih => rw [List.replicate_succ, List.cons_append, pieces_sep, ih]; rfl

theorem pieces_joinString (N : List Str) (hne : N ≠ []) (hN : ∀ c ∈ N, IsComp c) :
    pieces (joinString SEP N) = N := by
  induction N with
  | nil => exact absurd rfl hne
  | cons x xs ih =>
    cases xs with
    | nil => simpa [joinString] using pieces_noSep x (hN x (by simp)).2.1
    | cons y ys =>
      simp only [joinString]
      rw [pieces_noSep_sep _ _ (hN x (by simp)).2.1,
        ih (by simp) (fun c hc => hN c (by simp [hc]))]

theorem isAbs_iff_initialSlashes (p : Str) : isAbs p = true ↔ initialSlashes p ≠ 0 := by
  rw [isAbs_iff_leadingSeps, initialSlashes_eq]
  split_ifs <;> omega

/-- The pieces of the result of `normPath`: one empty piece for each leading separator, then
the final `newComps` (a lone empty piece or `"."` when there is none). -/
theorem pieces_normPath (p : Str) (hp : p ≠ []) :
    pieces (normPath p) =
      if (components p).foldl (normStep (initialSlashes p)) [] = [] then
        (if initialSlashes p = 0 then [dot] else List.replicate (initialSlashes p) [] ++ [[]])
      else List.replicate (initialSlashes p) [] ++
        (components p).foldl (normStep (initialSlashes p)) [] := by
  obtain ⟨hN, _⟩ := newComps_spec p
  rw [normPath_eq p hp]
  generalize (components p).foldl (normStep (initialSlashes p)) [] = N at hN ⊢
  by_cases hn : N = []
  · subst hn
    by_cases hi : initialSlashes p = 0
    · simp only [hi, and_self, if_true]; decide
    · simp only [hi, false_and, if_false, if_true, joinString]
      rw [pieces_replicate]; rfl
  · simp only [hn, and_false, if_false]
    rw [pieces_replicate, pieces_joinString N hn hN]

/-- C19: the shape of the output of `normPath`. Split on the separator, the result holds no
`".."` at all when the path is absolute, and when it is relative nothing but `".."` stands
before a `".."`; and the same holds of the vector `newComps` after every step of the loop,
that is, after the walk over every prefix of the components. -/
theorem normPath_shape (p : Str) :
    (isAbs p = true → dotdot ∉ pieces (normPath p)) ∧
    (isAbs p = false → LeadingRun (pieces (normPath p))) ∧
    ∀ pre : List Str, pre <+: components p →
      (isAbs p = true → dotdot ∉ pre.foldl (normStep (initialSlashes p)) []) ∧
      (isAbs p = false → LeadingRun (pre.foldl (normStep (initialSlashes p)) [])) := by
  have hstep : ∀ pre : List Str, NormInv (initialSlashes p)
      (pre.foldl (normStep (initialSlashes p)) []) :=
    fun pre => normLoop_inv _ pre [] ⟨fun _ => by simp, by simp [goodStack]⟩
  have hdot : LeadingRun [dot] := by
    intro A B h x hx
    cases A with
    | nil => simp at hx
    | cons a as =>
      simp only [List.cons_append, List.cons.injEq] at h
      have := h.2
      simp at this
  refine ⟨?_, ?_, ?_⟩
  · intro habs
    have hi := (isAbs_iff_initialSlashes p).1 habs
    have hp : p ≠ [] := by rintro rfl; simp [isAbs] at habs
    rw [pieces_normPath p hp]
    have hno := (hstep (components p)).1 hi
    by_cases hn : (components p).foldl (normStep (initialSlashes p)) [] = []
    · rw [if_pos hn, if_neg hi]
      intro hm
      rcases List.mem_append.1 hm with h | h
      · have := List.eq_of_mem_replicate h; simp [dotdot] at this
      · simp [dotdot] at h
    · rw [if_neg hn]
      intro hm
      rcases List.mem_append.1 hm with h | h
      · have := List.eq_of_mem_replicate h; simp [dotdot] at this
      · exact hno h
  · intro hrel
    by_cases hp : p = []
    · subst hp
      have : normPath [] = dot := by decide
      rw [this, pieces_noSep dot (by decide)]
      exact hdot
    · have hi : initialSlashes p = 0 := by
        by_contra hi
        have := (isAbs_iff_initialSlashes p).2 hi
        rw [hrel] at this; cases this
      rw [pieces_normPath p hp]
      by_cases hn : (components p).foldl (normStep (initialSlashes p)) [] = []
      · rw [if_pos hn, if_pos hi]
        exact hdot
      · rw [if_neg hn]
        have := leadingRun_of_goodStack _ (hstep (components p)).2
        simpa [hi] using this
  · intro pre _
    refine ⟨fun habs => (hstep pre).1 ((isAbs_iff_initialSlashes p).1 habs),
      fun _ => leadingRun_of_goodStack _ (hstep pre).2⟩

theorem normPath_shape_witness :
    dotdot ∉ pieces (normPath "/../a/..".toList) ∧
    LeadingRun (pieces (normPath "a/../../../b".toList)) ∧
    LeadingRun (["a".toList, dotdot, dotdot].foldl
      (normStep (initialSlashes "a/../../../b".toList)) []) :=
  ⟨(normPath_shape "/../a/..".toList).1 (by decide),
    (normPath_shape "a/../../../b".toList).2.1 (by decide),
    ((normPath_shape "a/../../../b".toList).2.2 ["a".toList, dotdot, dotdot]
      (by decide)).2 (by decide)⟩

/-! ## Splitting a path and joining it again -/

theorem components_append_sep (x y : Str) :
    components (x ++ SEP :: y) = components x ++ components y := by
  suffices hs : ∀ (n : Nat) (x : Str), x.length = n →
      components (x ++ SEP :: y) = components x ++ components y from hs _ x rfl
  intro n
  induction n using Nat.strong_induction_on with
  | _ n ih =>
    intro x hn
    rcases sep_decomp SEP x with hno | ⟨t, rest, ht, heq⟩
    · rw [components_noSep_sep x y hno, components_noSep x hno]
    · subst heq
      have hrest := ih rest.length (by rw [← hn]; simp; omega) rest rfl
      rw [List.append_assoc, List.cons_append, components_noSep_sep t _ ht, hrest,
        components_noSep_sep t rest ht, List.append_assoc]

/-- Two non-empty paths with the same `initialSlashes` and the same components have the same
normal form. -/
theorem normPath_congr (p q : Str) (hp : p ≠ []) (hq : q ≠ [])
    (hi : initialSlashes p = initialSlashes q) (hc : components p = components q) :
    normPath p = normPath q := by
  rw [normPath_eq p hp, normPath_eq q hq, hi, hc]

theorem leadingSeps_append (d x : Str) (c : Char) (hc : c ∈ d) (hne : c ≠ SEP) :
    leadingSeps (d ++ x) = leadingSeps d := by
  obtain ⟨r, hr, heq⟩ := exists_leading d
  have hrne : r ≠ [] := by
    rintro rfl
    rw [heq] at hc
    simp only [List.append_nil] at hc
    exact hne (List.eq_of_mem_replicate hc)
  have hrx : (r ++ x).head? ≠ some SEP := by
    obtain ⟨a, as, rfl⟩ := List.exists_cons_of_ne_nil hrne
    simpa using hr
  conv_lhs => rw [heq, List.append_assoc]
  exact leadingSeps_replicate _ _ hrx

/-- A string is what is left of it without its trailing separators, followed by them. -/
theorem rdropWhile_sep_decomp (l : Str) :
    ∃ k, l = l.rdropWhile (fun c => c == SEP) ++ List.replicate k SEP ∧
      (l.rdropWhile (fun c => c == SEP)).getLast? ≠ some SEP := by
  induction l using List.reverseRecOn with
  | nil => exact ⟨0, by simp, by simp⟩
  | append_singleton L t ih =>
    by_cases ht : t = SEP
    · subst ht
      obtain ⟨k, hk1, hk2⟩ := ih
      rw [List.rdropWhile_concat_pos _ _ _ (by simp)]
      refine ⟨k + 1, ?_, hk2⟩
      rw [List.replicate_succ', ← List.append_assoc, ← hk1]
    · rw [List.rdropWhile_concat_neg _ _ _ (by simpa using ht)]
      exact ⟨0, by simp, by simpa using ht⟩

theorem split_noSep (p : Str) (h : SEP ∉ p) : split p = ([], p) := by
  simp only [split, rfindSepPlusOne_none p h, List.take_zero, List.drop_zero]
  rw [stripHead_eq]; simp

theorem split_last (a b : Str) (hb : SEP ∉ b) :
    split (a ++ SEP :: b) =
      (if ∀ c ∈ a ++ [SEP], c = SEP then a ++ [SEP]
       else (a ++ [SEP]).rdropWhile (fun c => c == SEP), b) := by
  have ht : (a ++ SEP :: b).take (a.length + 1) = a ++ [SEP] := by
    rw [show a ++ SEP :: b = (a ++ [SEP]) ++ b by simp]
    exact List.take_left' (by simp)
  have hd : (a ++ SEP :: b).drop (a.length + 1) = b := by
    rw [show a ++ SEP :: b = (a ++ [SEP]) ++ b by simp]
    exact List.drop_left' (by simp)
  simp only [split, rfindSepPlusOne_last a b hb, ht, hd]
  rw [stripHead_eq]

theorem baseName_eq_split (p : Str) : baseName p = (split p).2 := by
  simp only [baseName, split, rfindSepPlusOne]
  cases rfind p SEP with
  | none => simp only [npos]; norm_num
  | some i => rfl

theorem join_two (a b : Str) : join a b [] = joinStep a b := by
  rw [join_eq_foldl]; rfl

theorem isAbs_of_noSep (b : Str) (hb : SEP ∉ b) : isAbs b = false := by
  cases b with
  | nil => rfl
  | cons x xs =>
    have hx : x ≠ SEP := fun e => hb (by simp [e])
    simp [isAbs, hx]

/-- The join of the two halves of a path, in the three cases of `split`. -/
theorem join_split_cases (p : Str) :
    (SEP ∉ p → join (dirName p) (baseName p) [] = p) ∧
    ∀ a b : Str, p = a ++ SEP :: b → SEP ∉ b →
      ((∀ c ∈ a, c = SEP) → join (dirName p) (baseName p) [] = p) ∧
      (¬ (∀ c ∈ a, c = SEP) → ∃ (d : Str) (k : Nat) (c : Char), c ∈ d ∧ c ≠ SEP ∧
        p = d ++ SEP :: (List.replicate k SEP ++ b) ∧
        join (dirName p) (baseName p) [] = d ++ SEP :: b) := by
  have hdir : dirName p = (split p).1 := rfl
  rw [hdir, baseName_eq_split, join_two]
  constructor
  · intro h
    rw [split_noSep p h]
    simp [joinStep, isAbs_of_noSep p h]
  · intro a b hp hb
    subst hp
    rw [split_last a b hb]
    have hbabs := isAbs_of_noSep b hb
    constructor
    · intro hall
      have hall' : ∀ c ∈ a ++ [SEP], c = SEP := by
        intro c hc
        rcases List.mem_append.1 hc with h | h
        · exact hall c h
        · simpa using h
      simp only [if_pos hall']
      simp [joinStep, hbabs]
    · intro hnall
      have hnall' : ¬ ∀ c ∈ a ++ [SEP], c = SEP :=
        fun h => hnall (fun c hc => h c (by simp [hc]))
      simp only [if_neg hnall']
      obtain ⟨k, hk1, hk2⟩ := rdropWhile_sep_decomp (a ++ [SEP])
      generalize (a ++ [SEP]).rdropWhile (fun c => c == SEP) = d at hk1 hk2 ⊢
      have hd : d ≠ [] := by
        rintro rfl
        apply hnall'
        intro c hc
        rw [hk1] at hc
        exact List.eq_of_mem_replicate (by simpa using hc)
      obtain ⟨L, t, rfl⟩ := (eq_nil_or_snoc d).resolve_left hd
      have ht : t ≠ SEP := by simpa using hk2
      cases k with
      | zero =>
        simp only [List.replicate_zero, List.append_nil] at hk1
        have := congrArg List.getLast? hk1
        simp at this
        exact absurd this.symm ht
      | succ k =>
        refine ⟨L ++ [t], k, t, by simp, ht, ?_, ?_⟩
        · have : a ++ SEP :: b = (a ++ [SEP]) ++ b := by simp
          rw [this, hk1, List.replicate_succ]
          simp
        · simp [joinStep, hbabs, ht]

/-- C20: splitting a path and joining the two halves keeps the normal form, and gives the path
back when it holds no separator or when what stands before its last separator is separators
only. -/
theorem join_split_normal (p : Str) :
    normPath (join (dirName p) (baseName p) []) = normPath p ∧
    (SEP ∉ p → join (dirName p) (baseName p) [] = p) ∧
    (∀ a b : Str, p = a ++ SEP :: b → SEP ∉ b → (∀ c ∈ a, c = SEP) →
      join (dirName p) (baseName p) [] = p) := by
  obtain ⟨h1, h2⟩ := join_split_cases p
  refine ⟨?_, h1, fun a b hp hb hall => (h2 a b hp hb).1 hall⟩
  by_cases hsep : SEP ∈ p
  · obtain ⟨a, b, hp, hb⟩ := last_sep_decomp p hsep
    by_cases hall : ∀ c ∈ a, c = SEP
    · rw [(h2 a b hp hb).1 hall]
    · obtain ⟨d, k, c, hc, hcne, hpd, hj⟩ := (h2 a b hp hb).2 hall
      rw [hj]
      apply normPath_congr
      · simp
      · rw [hpd]; simp
      · rw [hpd, initialSlashes_eq, initialSlashes_eq, leadingSeps_append d _ c hc hcne,
          leadingSeps_append d _ c hc hcne]
      · rw [hpd, components_append_sep, components_append_sep, components_replicate_sep]
  · rw [h1 hsep]

theorem join_split_normal_witness :
    join (dirName "////foo".toList) (baseName "////foo".toList) [] = "////foo".toList ∧
    join (dirName "foo".toList) (baseName "foo".toList) [] = "foo".toList ∧
    normPath (join (dirName "a//b".toList) (baseName "a//b".toList) [])
      = normPath "a//b".toList :=
  ⟨(join_split_normal "////foo".toList).2.2 "///".toList "foo".toList rfl (by decide)
      (by decide),
    (join_split_normal "foo".toList).2.1 (by decide),
    (join_split_normal "a//b".toList).1⟩

/-! ## The retry loop of the home-directory lookups -/

/-- Once the first call has signalled `ERANGE`, no number of iterations ends the loop. -/
theorem retryLoop_stuck (lookup : Nat → PwAnswer) :
    ∀ (fuel size : Nat) (last : PwAnswer), retryLoop lookup ERANGE fuel size last = none := by
  intro fuel
  induction fuel with
  | zero => intro size last; simp [retryLoop]
  | succ n ih => intro size last; simp [retryLoop, ih]

/-- When the first call does not signal `ERANGE`, the loop ends at once, whatever the fuel. -/
theorem retryLoop_done (lookup : Nat → PwAnswer) (error : Nat) (h : error ≠ ERANGE)
    (fuel size : Nat) (last : PwAnswer) :
    retryLoop lookup error fuel size last = some (size, last) := by
  cases fuel <;> simp [retryLoop, h]

/-- A lookup that needs more than 512 bytes never comes back. -/
theorem lookupHome_stuck (N : Nat) (answer : PwAnswer) (hN : 512 < N) (fuel : Nat) :
    lookupHome (thresholdLookup N answer) fuel = none := by
  have h : (thresholdLookup N answer 512).error = ERANGE := by simp [thresholdLookup, hN]
  simp [lookupHome, h, retryLoop_stuck]

/-- A lookup that 512 bytes satisfy gives its answer without a retry. -/
theorem lookupHome_first (N : Nat) (answer : PwAnswer) (hN : N ≤ 512)
    (herr : answer.error ≠ ERANGE) (fuel : Nat) :
    lookupHome (thresholdLookup N answer) fuel =
      some (if answer.error != 0 || !answer.found then [] else answer.pw_dir) := by
  have h : thresholdLookup N answer 512 = answer := by
    simp [thresholdLookup, Nat.not_lt.2 hN]
  simp only [lookupHome, h, retryLoop_done _ _ herr, Option.map_some']

/-- C21 at its failing input: the password lookup of `root` needs a buffer of 513 bytes. The
first call, with 512 bytes, signals `ERANGE`; one retry with the grown buffer of 768 bytes
would give the entry; but with any number of iterations allowed, neither
`getHomeDirectory("root")` nor `getHomeDirectory()` without `HOME` returns. With a lookup that
512 bytes satisfy both return the home directory. -/
theorem getHomeDirectory_retry_stuck :
    thresholdLookup 513 rootAnswer 512 = ⟨ERANGE, false, []⟩ ∧
    thresholdLookup 513 rootAnswer (grow 512) = rootAnswer ∧
    (∀ fuel : Nat, getHomeDirectoryOf none (thresholdLookup 513 rootAnswer)
      (fun _ => thresholdLookup 513 rootAnswer) fuel "root".toList = none) ∧
    (∀ fuel : Nat, getHomeDirectory none (thresholdLookup 513 rootAnswer) fuel = none) ∧
    (∀ fuel : Nat, getHomeDirectoryOf none (thresholdLookup 512 rootAnswer)
      (fun _ => thresholdLookup 512 rootAnswer) fuel "root".toList = some "/root".toList) := by
  refine ⟨by decide, by decide, fun fuel => ?_, fun fuel => ?_, fun fuel => ?_⟩
  · show lookupHome (thresholdLookup 513 rootAnswer) fuel = none
    exact lookupHome_stuck 513 rootAnswer (by decide) fuel
  · exact lookupHome_stuck 513 rootAnswer (by decide) fuel
  · show lookupHome (thresholdLookup 512 rootAnswer) fuel = some "/root".toList
    rw [lookupHome_first 512 rootAnswer (le_refl _) (by decide) fuel]
    rfl

end ospath
